import Mathlib

/-!
# GitZipQR — verification of the encode/decode data pipeline

Shallow embedding of the GitZipQR encoder (`src/core/encode.ts`) and decoder
(the decoder defined in `src/core/manifest.ts`, inline-QR path plus the legacy
fragment path).  Bytes are modelled as `List Nat` (each element `< 256` where
it matters); JS strings as `String`; JS `undefined`/`null` as `Option`;
fallible steps as `Except String` carrying the exact error message the source
prints before `process.exit(1)`.

External library primitives (Node `crypto`):
* SHA-256 is implemented concretely below (FIPS 180-4); the source treats
  digests as opaque hex strings;
* scrypt and AES-256-GCM are taken as explicit function parameters of the
  pipeline definitions, with their contracts (round-trip, 16-byte tag,
  authentication) stated as hypotheses where a theorem needs them.
-/

namespace GitZipQR

/-! ## JS-array and truthiness helpers

`jsSet l i v` models the JS array assignment `l[i] = v`: the array is extended
with holes (`none`) up to index `i` if needed.  `jsGet` models `l[i]`
(out-of-range reads give `undefined`, i.e. `none`). -/

def jsSet {α : Type} : List (Option α) → Nat → α → List (Option α)
  | [], 0, v => [some v]
  | [], i + 1, v => none :: jsSet [] i v
  | _ :: t, 0, v => some v :: t
  | h :: t, i + 1, v => h :: jsSet t i v

def jsGet {α : Type} (l : List (Option α)) (i : Nat) : Option α :=
  l.getD i none

/-- JS `x || 1` for an optional number `x` (`undefined` and `0` are falsy). -/
def jsOr1 (x : Option Nat) : Nat :=
  match x with
  | none => 1
  | some 0 => 1
  | some (n + 1) => n + 1

/-- JS truthiness of an optional string (`undefined` and `""` are falsy). -/
def jsTruthyS (x : Option String) : Bool :=
  match x with
  | none => false
  | some s => s != ""

/-- JS truthiness of an optional number (`undefined` and `0` are falsy). -/
def jsTruthyN (x : Option Nat) : Bool :=
  match x with
  | none => false
  | some n => n != 0

theorem jsGet_jsSet_self {α : Type} (l : List (Option α)) (i : Nat) (v : α) :
    jsGet (jsSet l i v) i = some v := by
  induction l generalizing i with
  | nil =>
    induction i with
    | zero => rfl
    | succ n ih => simpa [jsSet, jsGet] using ih
  | cons h t ih =>
    cases i with
    | zero => rfl
    | succ n => simpa [jsSet, jsGet] using ih n

theorem jsGet_jsSet_ne {α : Type} (l : List (Option α)) (i j : Nat) (v : α)
    (hij : i ≠ j) : jsGet (jsSet l i v) j = jsGet l j := by
  induction l generalizing i j with
  | nil =>
    induction i generalizing j with
    | zero =>
      cases j with
      | zero => exact absurd rfl hij
      | succ m => simp [jsSet, jsGet]
    | succ n ih =>
      cases j with
      | zero => simp [jsSet, jsGet]
      | succ m =>
        have := ih (j := m) (by omega)
        simpa [jsSet, jsGet] using this
  | cons h t ih =>
    cases i with
    | zero =>
      cases j with
      | zero => exact absurd rfl hij
      | succ m => simp [jsSet, jsGet]
    | succ n =>
      cases j with
      | zero => simp [jsSet, jsGet]
      | succ m =>
        have := ih n m (by omega)
        simpa [jsSet, jsGet] using this

theorem jsSet_length {α : Type} (l : List (Option α)) (i : Nat) (v : α) :
    (jsSet l i v).length = max l.length (i + 1) := by
  induction l generalizing i with
  | nil =>
    induction i with
    | zero => rfl
    | succ n ih => simp only [jsSet, List.length_cons, List.length_nil, ih]; omega
  | cons h t ih =>
    cases i with
    | zero => simp only [jsSet, List.length_cons]; omega
    | succ n => simp only [jsSet, List.length_cons, ih n]; omega

/-! ## Base64 (RFC 4648, padded) — `Buffer.toString('base64')` and
`Buffer.from(s, 'base64')` -/

def b64Alphabet : List Char :=
  "ABCDEFGHIJKLMNOPQRSTUVWXYZabcdefghijklmnopqrstuvwxyz0123456789+/".toList

def sextetChar (n : Nat) : Char := b64Alphabet.getD n 'A'

def idxOfAux : List Char → Char → Nat → Option Nat
  | [], _, _ => none
  | h :: t, c, i => if h = c then some i else idxOfAux t c (i + 1)

/-- Index of the character in the base64 alphabet; `none` for every
non-alphabet character (Node's lenient decoder skips those, `=` included). -/
def charSextet (c : Char) : Option Nat := idxOfAux b64Alphabet c 0

/-- Encode a byte list (big-endian bit order inside each byte, per RFC 4648). -/
def b64EncodeList : List Nat → List Char
  | [] => []
  | [a] => [sextetChar (a / 4), sextetChar (a % 4 * 16), '=', '=']
  | [a, b] => [sextetChar (a / 4), sextetChar (a % 4 * 16 + b / 16),
               sextetChar (b % 16 * 4), '=']
  | a :: b :: c :: rest =>
      sextetChar (a / 4) :: sextetChar (a % 4 * 16 + b / 16) ::
      sextetChar (b % 16 * 4 + c / 64) :: sextetChar (c % 64) ::
      b64EncodeList rest

def b64Encode (bs : List Nat) : String := String.mk (b64EncodeList bs)

/-- Reassemble bytes from a sextet stream (length ≡ 0, 2, 3 mod 4; a single
leftover sextet yields nothing, as in Node's lenient decoder). -/
def b64DecodeSextets : List Nat → List Nat
  | s1 :: s2 :: s3 :: s4 :: rest =>
      (s1 * 4 + s2 / 16) :: (s2 % 16 * 16 + s3 / 4) :: (s3 % 4 * 64 + s4) ::
      b64DecodeSextets rest
  | [s1, s2] => [s1 * 4 + s2 / 16]
  | [s1, s2, s3] => [s1 * 4 + s2 / 16, s2 % 16 * 16 + s3 / 4]
  | _ => []

/-- Node's base64 decoder skips every non-alphabet character (including the
padding `=`) and then regroups sextets. -/
def b64Decode (s : String) : List Nat :=
  b64DecodeSextets (s.toList.filterMap charSextet)

theorem charSextet_sextetChar : ∀ n < 64, charSextet (sextetChar n) = some n := by
  decide

theorem charSextet_pad : charSextet '=' = none := by decide

theorem b64_roundtrip (bs : List Nat) (h : ∀ b ∈ bs, b < 256) :
    b64Decode (b64Encode bs) = bs := by
  induction bs using b64EncodeList.induct with
  | case1 => rfl
  | case2 a =>
    have ha : a < 256 := h a (by simp)
    simp only [b64Decode, b64Encode, b64EncodeList, String.mk, String.toList]
    simp only [List.filterMap_cons, List.filterMap_nil,
      charSextet_sextetChar (a / 4) (by omega),
      charSextet_sextetChar (a % 4 * 16) (by omega), charSextet_pad]
    simp only [b64DecodeSextets, List.cons.injEq, and_true]
    omega
  | case3 a b =>
    have ha : a < 256 := h a (by simp)
    have hb : b < 256 := h b (by simp)
    simp only [b64Decode, b64Encode, b64EncodeList, String.mk, String.toList]
    simp only [List.filterMap_cons, List.filterMap_nil,
      charSextet_sextetChar (a / 4) (by omega),
      charSextet_sextetChar (a % 4 * 16 + b / 16) (by omega),
      charSextet_sextetChar (b % 16 * 4) (by omega), charSextet_pad]
    simp only [b64DecodeSextets, List.cons.injEq, and_true]
    omega
  | case4 a b c rest ih =>
    have ha : a < 256 := h a (by simp)
    have hb : b < 256 := h b (by simp)
    have hc : c < 256 := h c (by simp)
    have hrest : ∀ x ∈ rest, x < 256 := fun x hx => h x (by simp [hx])
    have ihh := ih hrest
    simp only [b64Decode, b64Encode, b64EncodeList, String.mk, String.toList] at ihh ⊢
    simp only [List.filterMap_cons,
      charSextet_sextetChar (a / 4) (by omega),
      charSextet_sextetChar (a % 4 * 16 + b / 16) (by omega),
      charSextet_sextetChar (b % 16 * 4 + c / 64) (by omega),
      charSextet_sextetChar (c % 64) (by omega)]
    simp only [b64DecodeSextets, List.cons.injEq]
    refine ⟨by omega, by omega, by omega, ihh⟩

/-! ## Hex and list chunking -/

def hexDigit (n : Nat) : Char := "0123456789abcdef".toList.getD n '0'

def hexByte (b : Nat) : List Char := [hexDigit (b / 16), hexDigit (b % 16)]

def bytesToHex (bs : List Nat) : String := String.mk ((bs.map hexByte).flatten)

theorem bytesToHex_length (bs : List Nat) : (bytesToHex bs).length = 2 * bs.length := by
  induction bs with
  | nil => rfl
  | cons b t ih =>
    simp only [bytesToHex, String.length, String.mk, List.map_cons, List.flatten,
      hexByte, List.length_append, List.length_cons, List.length_nil] at ih ⊢
    omega

/-- Fuelled worker for `chunkAux` (structural recursion on the fuel, so the
kernel can evaluate it; the fuel is always the list length). -/
def chunkGo {α : Type} (k : Nat) : Nat → List α → List (List α)
  | _, [] => []
  | 0, _ :: _ => []
  | fuel + 1, a :: t => (a :: List.take k t) :: chunkGo k fuel (List.drop k t)

/-- Split a list into consecutive slices of `k + 1` elements (last one possibly
shorter); helper shared by the SHA-256 block split and the chunker proofs. -/
def chunkAux {α : Type} (k : Nat) (l : List α) : List (List α) :=
  chunkGo k l.length l

theorem chunkGo_fuel_irrel {α : Type} (k : Nat) :
    ∀ f₁ f₂ (l : List α), l.length ≤ f₁ → l.length ≤ f₂ →
      chunkGo k f₁ l = chunkGo k f₂ l := by
  intro f₁
  induction f₁ with
  | zero =>
    intro f₂ l h1 _
    have : l = [] := List.eq_nil_of_length_eq_zero (by omega)
    subst this
    cases f₂ <;> rfl
  | succ n ih =>
    intro f₂ l h1 h2
    cases l with
    | nil => cases f₂ <;> rfl
    | cons a t =>
      cases f₂ with
      | zero => simp at h2
      | succ m =>
        simp only [chunkGo]
        have hd : (List.drop k t).length ≤ n := by
          simp only [List.length_drop]
          simp only [List.length_cons] at h1
          omega
        have hd2 : (List.drop k t).length ≤ m := by
          simp only [List.length_drop]
          simp only [List.length_cons] at h2
          omega
        rw [ih m (List.drop k t) hd hd2]

theorem chunkAux_nil {α : Type} (k : Nat) : chunkAux k ([] : List α) = [] := rfl

theorem chunkAux_cons {α : Type} (k : Nat) (a : α) (t : List α) :
    chunkAux k (a :: t) = (a :: List.take k t) :: chunkAux k (List.drop k t) := by
  unfold chunkAux
  simp only [List.length_cons, chunkGo]
  rw [chunkGo_fuel_irrel k t.length (List.drop k t).length (List.drop k t)
    (by simp [List.length_drop]) le_rfl]

theorem chunkAux_flatten {α : Type} (k : Nat) (l : List α) :
    (chunkAux k l).flatten = l := by
  have main : ∀ n (l : List α), l.length ≤ n → (chunkAux k l).flatten = l := by
    intro n
    induction n with
    | zero =>
      intro l h
      have : l = [] := List.eq_nil_of_length_eq_zero (by omega)
      subst this; rfl
    | succ n ih =>
      intro l h
      cases l with
      | nil => rfl
      | cons a t =>
        have hd : (List.drop k t).length ≤ n := by
          simp only [List.length_drop]
          simp only [List.length_cons] at h
          omega
        rw [chunkAux_cons, List.flatten_cons, ih (List.drop k t) hd,
          List.cons_append, List.take_append_drop]
  exact main l.length l le_rfl

/-! ## SHA-256 (FIPS 180-4), over byte lists, 32-bit words as `Nat % 2^32` -/

def w32 (n : Nat) : Nat := n % 4294967296

/-- Right-rotate a 32-bit word by `n` places (0 < n < 32). -/
def rotr (n x : Nat) : Nat := w32 (x / 2 ^ n + x % 2 ^ n * 2 ^ (32 - n))

def shaCh (x y z : Nat) : Nat := (x &&& y) ^^^ ((4294967295 - w32 x) &&& z)

def shaMaj (x y z : Nat) : Nat := (x &&& y) ^^^ (x &&& z) ^^^ (y &&& z)

def bigSigma0 (x : Nat) : Nat := rotr 2 x ^^^ rotr 13 x ^^^ rotr 22 x

def bigSigma1 (x : Nat) : Nat := rotr 6 x ^^^ rotr 11 x ^^^ rotr 25 x

def smallSigma0 (x : Nat) : Nat := rotr 7 x ^^^ rotr 18 x ^^^ x / 8

def smallSigma1 (x : Nat) : Nat := rotr 17 x ^^^ rotr 19 x ^^^ x / 1024

def shaK : List Nat :=
  [ 1116352408, 1899447441, 3049323471, 3921009573, 961987163, 1508970993,
   2453635748, 2870763221, 3624381080, 310598401, 607225278, 1426881987,
   1925078388, 2162078206, 2614888103, 3248222580, 3835390401, 4022224774,
   264347078, 604807628, 770255983, 1249150122, 1555081692, 1996064986,
   2554220882, 2821834349, 2952996808, 3210313671, 3336571891, 3584528711,
   113926993, 338241895, 666307205, 773529912, 1294757372, 1396182291,
   1695183700, 1986661051, 2177026350, 2456956037, 2730485921, 2820302411,
   3259730800, 3345764771, 3516065817, 3600352804, 4094571909, 275423344,
   430227734, 506948616, 659060556, 883997877, 958139571, 1322822218,
   1537002063, 1747873779, 1955562222, 2024104815, 2227730452, 2361852424,
   2428436474, 2756734187, 3204031479, 3329325298]

structure Hash8 where
  a : Nat
  b : Nat
  c : Nat
  d : Nat
  e : Nat
  f : Nat
  g : Nat
  h : Nat
deriving Repr, DecidableEq

def shaInit : Hash8 :=
  ⟨0x6a09e667, 0xbb67ae85, 0x3c6ef372, 0xa54ff53a,
   0x510e527f, 0x9b05688c, 0x1f83d9ab, 0x5be0cd19⟩

def shaRound (st : Hash8) (kw : Nat × Nat) : Hash8 :=
  let t1 := w32 (st.h + bigSigma1 st.e + shaCh st.e st.f st.g + kw.1 + kw.2)
  let t2 := w32 (bigSigma0 st.a + shaMaj st.a st.b st.c)
  ⟨w32 (t1 + t2), st.a, st.b, st.c, w32 (st.d + t1), st.e, st.f, st.g⟩

/-- Extend the 16 message words to 64 (fuelled by the 48 extension steps). -/
def extendW : Nat → List Nat → List Nat
  | 0, w => w
  | n + 1, w =>
      extendW n (w ++ [w32 (smallSigma1 (w.getD (w.length - 2) 0) +
        w.getD (w.length - 7) 0 + smallSigma0 (w.getD (w.length - 15) 0) +
        w.getD (w.length - 16) 0)])

def wordOfBytes (bs : List Nat) : Nat :=
  bs.foldl (fun acc b => acc * 256 + b) 0

def compressBlock (st : Hash8) (block : List Nat) : Hash8 :=
  let ws := (chunkAux 3 block).map wordOfBytes
  let w := extendW 48 ws
  let r := (shaK.zip w).foldl shaRound st
  ⟨w32 (st.a + r.a), w32 (st.b + r.b), w32 (st.c + r.c), w32 (st.d + r.d),
   w32 (st.e + r.e), w32 (st.f + r.f), w32 (st.g + r.g), w32 (st.h + r.h)⟩

def bytesOfWord (w : Nat) : List Nat :=
  [w / 16777216 % 256, w / 65536 % 256, w / 256 % 256, w % 256]

def bytesOfWord64 (n : Nat) : List Nat :=
  [n / 2 ^ 56 % 256, n / 2 ^ 48 % 256, n / 2 ^ 40 % 256, n / 2 ^ 32 % 256,
   n / 2 ^ 24 % 256, n / 2 ^ 16 % 256, n / 2 ^ 8 % 256, n % 256]

def padMessage (msg : List Nat) : List Nat :=
  msg ++ 0x80 :: List.replicate ((119 - msg.length % 64) % 64) 0 ++
    bytesOfWord64 (8 * msg.length)

def sha256Bytes (msg : List Nat) : List Nat :=
  let st := (chunkAux 63 (padMessage msg)).foldl compressBlock shaInit
  bytesOfWord st.a ++ bytesOfWord st.b ++ bytesOfWord st.c ++ bytesOfWord st.d ++
  bytesOfWord st.e ++ bytesOfWord st.f ++ bytesOfWord st.g ++ bytesOfWord st.h

/-- `crypto.createHash('sha256').update(buf).digest('hex')`. -/
def sha256Hex (msg : List Nat) : String := bytesToHex (sha256Bytes msg)

theorem sha256Bytes_length (msg : List Nat) : (sha256Bytes msg).length = 32 := by
  simp [sha256Bytes, bytesOfWord]

/-- Every SHA-256 hex digest has exactly 64 characters; used to show that a
`hash` field of a different length cannot match any digest. -/
theorem sha256Hex_length (msg : List Nat) : (sha256Hex msg).length = 64 := by
  rw [sha256Hex, bytesToHex_length, sha256Bytes_length]

/-! ## JSON serialization (`JSON.stringify` on the payload object layout) -/

def escChar (c : Char) : List Char :=
  if c = '"' then ['\\', '"']
  else if c = '\\' then ['\\', '\\']
  else if c = '\x08' then ['\\', 'b']
  else if c = '\x09' then ['\\', 't']
  else if c = '\x0a' then ['\\', 'n']
  else if c = '\x0c' then ['\\', 'f']
  else if c = '\x0d' then ['\\', 'r']
  else if c.toNat < 32 then
    ['\\', 'u', '0', '0', hexDigit (c.toNat / 16), hexDigit (c.toNat % 16)]
  else [c]

/-- `JSON.stringify` of a string value (quotes plus escaping). -/
def jsonStr (s : String) : String :=
  "\"" ++ String.mk ((s.toList.map escChar).flatten) ++ "\""

/-- `JSON.stringify` of a non-negative integer. -/
def jsonNum (n : Nat) : String := toString n

/-! ## `path.extname` (posix, for names without separators) and magic-number
extension detection (`guessExtension` in `src/core/manifest.ts`) -/

def lastIdxOf (c : Char) : List Char → Option Nat
  | [] => none
  | h :: t =>
      match lastIdxOf c t with
      | some i => some (i + 1)
      | none => if h = c then some 0 else none

/-- Node `path.extname` restricted to names without path separators: the
suffix from the last `.`, except when there is no dot, the only dot is the
leading character, or the name is exactly `..`. -/
def extname (s : String) : String :=
  match lastIdxOf '.' s.toList with
  | none => ""
  | some 0 => ""
  | some i => if s.toList = ['.', '.'] then "" else String.mk (s.toList.drop i)

/-- `guessExtension` from `src/core/manifest.ts` (lines 219–228): magic-number
detection over the decrypted bytes. -/
def guessExtension (buf : List Nat) : String :=
  if buf.length < 4 then ""
  else if buf.take 8 = [0x89, 0x50, 0x4e, 0x47, 0x0d, 0x0a, 0x1a, 0x0a] then ".png"
  else if buf.take 3 = [0xff, 0xd8, 0xff] then ".jpg"
  else if buf.take 4 = [0x47, 0x49, 0x46, 0x38] then ".gif"
  else if buf.take 4 = [0x25, 0x50, 0x44, 0x46] then ".pdf"
  else if buf.take 4 = [0x50, 0x4b, 0x03, 0x04] then ".zip"
  else ""

/-! ## Data model: `ChunkPayload` (§ `src/core/encode.ts` lines 200–213 and 243–249)

`kdfParams`, `part`, `partTotal` are optional because the decoder probes for
their presence (`m.kdfParams`, `typeof m.part === 'number'`); the encoder
always provides `kdfParams` and never emits `part`/`partTotal`. -/

structure KdfParams where
  N : Nat
  r : Nat
  p : Nat
deriving Repr, DecidableEq

structure ChunkPayload where
  type : String
  version : String
  fileId : String
  name : String
  ext : String
  chunk : Nat
  total : Nat
  hash : String
  cipherHash : String
  kdfParams : Option KdfParams
  saltB64 : String
  nonceB64 : String
  chunkSize : Nat
  dataB64 : String
  part : Option Nat
  partTotal : Option Nat
deriving Repr, DecidableEq

def FRAGMENT_TYPE : String := "GitZipQR-CHUNK-ENC"

/-- UTF-8 encoding of one scalar value. -/
def utf8Bytes (c : Char) : List Nat :=
  let n := c.toNat
  if n < 0x80 then [n]
  else if n < 0x800 then [0xc0 + n / 64, 0x80 + n % 64]
  else if n < 0x10000 then [0xe0 + n / 4096, 0x80 + n / 64 % 64, 0x80 + n % 64]
  else [0xf0 + n / 262144, 0x80 + n / 4096 % 64, 0x80 + n / 64 % 64, 0x80 + n % 64]

def strToBytes (s : String) : List Nat := (s.toList.map utf8Bytes).flatten

def kdfJson (k : KdfParams) : String :=
  "\x7b\"N\":" ++ jsonNum k.N ++ ",\"r\":" ++ jsonNum k.r ++
  ",\"p\":" ++ jsonNum k.p ++ "\x7d"

/-- `JSON.stringify` of a payload object: keys in the literal's insertion order
(the spread of `baseMeta` keeps its key order; `dataB64`, a new key, lands
last — exactly the layout of `JSON.stringify({ ...baseMeta, dataB64 })`). -/
def payloadJsonString (p : ChunkPayload) : String :=
  "\x7b\"type\":" ++ jsonStr p.type ++ ",\"version\":" ++ jsonStr p.version ++
  ",\"fileId\":" ++ jsonStr p.fileId ++ ",\"name\":" ++ jsonStr p.name ++
  ",\"ext\":" ++ jsonStr p.ext ++ ",\"chunk\":" ++ jsonNum p.chunk ++
  ",\"total\":" ++ jsonNum p.total ++ ",\"hash\":" ++ jsonStr p.hash ++
  ",\"cipherHash\":" ++ jsonStr p.cipherHash ++
  ",\"kdfParams\":" ++ kdfJson (p.kdfParams.getD ⟨0, 0, 0⟩) ++
  ",\"saltB64\":" ++ jsonStr p.saltB64 ++
  ",\"nonceB64\":" ++ jsonStr p.nonceB64 ++
  ",\"chunkSize\":" ++ jsonNum p.chunkSize ++
  ",\"dataB64\":" ++ jsonStr p.dataB64 ++ "\x7d"

/-! ## Encoder (`src/core/encode.ts`, steps 3–5) -/

/-- `const CAPACITY = { L: 2953, M: 2331, Q: 1663, H: 1273 }` (bytes for QR
version 40). -/
def CAPACITY (ecl : String) : Option Nat :=
  if ecl = "L" then some 2953
  else if ecl = "M" then some 2331
  else if ecl = "Q" then some 1663
  else if ecl = "H" then some 1273
  else none

/-- `CAPACITY[ECL] || CAPACITY.Q`. -/
def maxBytesFor (ecl : String) : Nat := (CAPACITY ecl).getD 1663

/-- `baseMeta` of `encode` (lines 200–213): the session-level record, with
placeholder `chunk`/`total`/`hash`/`chunkSize` values. -/
def baseMeta (nameBase metaExt cipherSha256 : String) (kdf : KdfParams)
    (saltB64 nonceB64 : String) : ChunkPayload :=
  { type := FRAGMENT_TYPE
    version := "3.1-inline-only"
    fileId := (sha256Hex (strToBytes (nameBase ++ ":" ++ cipherSha256))).take 16
    name := nameBase
    ext := metaExt
    chunk := 0
    total := 1
    hash := String.mk (List.replicate 64 '0')
    cipherHash := cipherSha256
    kdfParams := some kdf
    saltB64 := saltB64
    nonceB64 := nonceB64
    chunkSize := 0
    dataB64 := ""
    part := none
    partTotal := none }

/-- STEP 4 (lines 216–225): `maxDataB64 = maxBytes − overhead`, fatal when
non-positive. -/
def calibrate (ecl : String) (meta : ChunkPayload) : Except String Nat :=
  let maxBytes := maxBytesFor ecl
  let overhead := (strToBytes (payloadJsonString { meta with dataB64 := "" })).length
  if maxBytes ≤ overhead then
    .error "Calibration failed: metadata too large for chosen error correction level"
  else .ok (maxBytes - overhead)

/-- `Math.max(512, Math.floor(maxDataB64 * 3 / 4 * 0.98))` (line 227).  For
`0 < maxDataB64 ≤ 2953` the double-precision evaluation agrees with the exact
rational floor `⌊maxDataB64·147/200⌋`: the exact value is either an integer
(the float product then rounds to it, the error being ≪ one ulp) or at least
`1/200` away from one, far beyond the ≈4·10⁻¹⁴ accumulated float error. -/
def idealChunk (maxDataB64 : Nat) : Nat := max 512 (maxDataB64 * 147 / 200)

/-- `parseInt(process.env.CHUNK_SIZE || String(idealChunk), 10)` (line 228):
the parsed override, when configured, else the computed size. -/
def chunkSizeOf (envChunkSize : Option Nat) (ideal : Nat) : Nat :=
  envChunkSize.getD ideal

/-- `Math.ceil(st.size / CHUNK_SIZE)` (line 234), for positive `cs`. -/
def totalChunksOf (size cs : Nat) : Nat := (size + cs - 1) / cs

/-- Chunk `i` of the frame: bytes `[i*cs, min((i+1)*cs, len))` (lines 240–241). -/
def sliceChunk (frame : List Nat) (cs i : Nat) : List Nat :=
  (frame.drop (i * cs)).take cs

/-- The chunk list the STEP 5 loop walks over, in index order. -/
def encChunks (frame : List Nat) (cs : Nat) : List (List Nat) :=
  (List.range (totalChunksOf frame.length cs)).map (sliceChunk frame cs)

/-- The payload for chunk `i` (lines 242–249). -/
def mkPayload (meta : ChunkPayload) (totalChunks i : Nat) (bytes : List Nat) :
    ChunkPayload :=
  { meta with
    chunk := i
    total := totalChunks
    hash := sha256Hex bytes
    dataB64 := b64Encode bytes }

/-- STEP 5 loop (lines 239–252): one payload per chunk, in index order. -/
def encodePayloads (meta : ChunkPayload) (frame : List Nat) (cs : Nat) :
    List ChunkPayload :=
  (List.range (totalChunksOf frame.length cs)).map
    (fun i => mkPayload meta (totalChunksOf frame.length cs) i (sliceChunk frame cs i))

/-- Steps 3–5 of `encode`, parameterized over the crypto primitives:
`deriveKey` stands for `crypto.scrypt(PASSPHRASE, salt, 32, {N,r,p})` and
`aeadEncrypt` for AES-256-GCM returning ciphertext and the 16-byte auth tag,
which the source appends to the ciphertext file (line 193). -/
def encodeSession
    (deriveKey : String → List Nat → KdfParams → List Nat)
    (aeadEncrypt : List Nat → List Nat → List Nat → List Nat × List Nat)
    (pass : String) (salt nonce : List Nat) (kdf : KdfParams)
    (nameBase metaExt ecl : String) (envChunkSize : Option Nat)
    (data : List Nat) : Except String (List ChunkPayload × Nat × Nat) :=
  let key := deriveKey pass salt kdf
  let ctTag := aeadEncrypt key nonce data
  let frame := ctTag.1 ++ ctTag.2
  let cipherSha := sha256Hex frame
  let meta := baseMeta nameBase metaExt cipherSha kdf (b64Encode salt) (b64Encode nonce)
  match calibrate ecl meta with
  | .error e => .error e
  | .ok maxDataB64 =>
      let cs := chunkSizeOf envChunkSize (idealChunk maxDataB64)
      let meta' := { meta with chunkSize := cs }
      .ok (encodePayloads meta' frame cs, totalChunksOf frame.length cs, cs)

/-! ## Decoder (`src/core/manifest.ts`, `decode`, lines 260–400)

The inline-QR path accumulates payloads into `acc`, a JS `Map` keyed by the
string `` `${fileId}:${chunk}` `` (insertion-ordered); the chunk index is later
recovered by `parseInt(key.split(':')[1], 10)`.  We key by the pair
`(fileId, chunk)` directly, which agrees with the source whenever `fileId`
contains no colon — always true of the encoder's 16-hex-char ids. -/

structure Entry where
  parts : List (Option String)
  total : Nat
deriving Repr, DecidableEq

structure CollectState where
  acc : List ((String × Nat) × Entry)
  archiveName : Option String
  archiveExt : Option String
  cipherSha256 : Option String
  kdf : Option KdfParams
  salt : Option (List Nat)
  nonce : Option (List Nat)
  expectedTotal : Option Nat
deriving Repr, DecidableEq

def initCollect : CollectState := ⟨[], none, none, none, none, none, none, none⟩

def accLookup (k : String × Nat) :
    List ((String × Nat) × Entry) → Option Entry
  | [] => none
  | (k', e) :: t => if k' = k then some e else accLookup k t

def accUpdate (k : String × Nat) (e : Entry) :
    List ((String × Nat) × Entry) → List ((String × Nat) × Entry)
  | [] => [(k, e)]
  | (k', e') :: t => if k' = k then (k, e) :: t else (k', e') :: accUpdate k e t

/-- One iteration of the result loop (lines 278–297).  A result that is not
`ok`, of the wrong `type`, or without numeric `chunk`/`total` is skipped; a
payload with falsy `dataB64` is also skipped.  Otherwise the payload's data is
recorded under `(fileId, chunk)` at part index `part ?? 0`, and the
session-level fields are memoized first-wins (guards are the JS truthiness
tests of lines 290–296). -/
def stepCollect (st : CollectState) (m : ChunkPayload) : CollectState :=
  if m.type ≠ FRAGMENT_TYPE then st
  else if m.dataB64 = "" then st
  else
    let key := (m.fileId, m.chunk)
    let entry0 := (accLookup key st.acc).getD ⟨[], jsOr1 m.partTotal⟩
    let entry := Entry.mk (jsSet entry0.parts (m.part.getD 0) m.dataB64)
      (jsOr1 m.partTotal)
    { acc := accUpdate key entry st.acc
      archiveName := if jsTruthyS st.archiveName then st.archiveName else some m.name
      archiveExt :=
        if jsTruthyS st.archiveExt then st.archiveExt
        else if m.ext ≠ "" then some m.ext else st.archiveExt
      cipherSha256 :=
        if jsTruthyS st.cipherSha256 then st.cipherSha256 else some m.cipherHash
      kdf := if st.kdf.isSome then st.kdf else m.kdfParams
      salt :=
        if st.salt.isSome then st.salt
        else if m.saltB64 ≠ "" then some (b64Decode m.saltB64) else st.salt
      nonce :=
        if st.nonce.isSome then st.nonce
        else if m.nonceB64 ≠ "" then some (b64Decode m.nonceB64) else st.nonce
      expectedTotal :=
        if jsTruthyN st.expectedTotal then st.expectedTotal else some m.total }

/-- JS `parts.join('')`: holes contribute the empty string. -/
def joinParts (parts : List (Option String)) : String :=
  String.join (parts.map (fun o => o.getD ""))

def firstMissingPart (parts : List (Option String)) (t : Nat) : Option Nat :=
  (List.range t).find? (fun p => (jsGet parts p).isNone)

/-- The `acc` consumption loop (lines 300–309): every part index below
`entry.total || 1` must be present (else fatal, naming the first missing
part); the parts are joined in index order when `entry.total > 1`, base64-
decoded, and stored at the chunk index. -/
def entryChunks :
    List ((String × Nat) × Entry) → List (Option (List Nat)) →
      Except String (List (Option (List Nat)))
  | [], chunks => .ok chunks
  | (key, e) :: rest, chunks =>
      let t := if e.total = 0 then 1 else e.total
      match firstMissingPart e.parts t with
      | some p =>
          .error ("Missing QR part " ++ toString (p + 1) ++ "/" ++
            toString e.total ++ " for " ++ key.1 ++ ":" ++ toString key.2)
      | none =>
          let joined :=
            if e.total > 1 then joinParts e.parts else (jsGet e.parts 0).getD ""
          entryChunks rest (jsSet chunks key.2 (b64Decode joined))

/-- STEP 1, inline path (lines 276–314): fold the recognized payloads, then
assemble the sparse `chunks` array; fatal when no inline data was collected. -/
def collectInline (ms : List ChunkPayload) :
    Except String (CollectState × List (Option (List Nat))) :=
  let st := ms.foldl stepCollect initCollect
  if st.acc.isEmpty then
    .error "No inline QR data detected in images. Provide inline QR codes or legacy fragments."
  else (entryChunks st.acc []).map (fun chunks => (st, chunks))

/-- STEP 2 (lines 346–355): `present = chunks.filter(Boolean).length` (every
stored `Buffer` is truthy); a count mismatch is fatal with the counts — not
the indices — in the message; then `Buffer.concat` (which would throw on a
sparse array, modelled as an error) and the whole-ciphertext hash check. -/
def verifyAssemble (chunks : List (Option (List Nat)))
    (expectedTotal : Option Nat) (cipherSha256 : Option String) :
    Except String (List Nat) :=
  let present := (chunks.filterMap id).length
  if jsTruthyN expectedTotal && present != expectedTotal.getD 0 then
    .error ("Missing chunks: " ++ toString present ++ "/" ++
      toString (expectedTotal.getD 0))
  else if chunks.any Option.isNone then
    .error "TypeError: list argument must be an Array of Buffers"
  else
    let encBuffer := (chunks.filterMap id).flatten
    if jsTruthyS cipherSha256 && sha256Hex encBuffer != cipherSha256.getD "" then
      .error ("Global sha256 mismatch. Expected " ++ cipherSha256.getD "" ++
        ", got " ++ sha256Hex encBuffer)
    else .ok encBuffer

/-- STEP 3 (lines 357–379): missing crypto parameters are fatal; otherwise
derive the key, split the last 16 bytes as the GCM tag (`subarray`, for
buffers of length ≥ 16), and decrypt.  `aeadDecrypt` stands for
`crypto.createDecipheriv('aes-256-gcm', …)` + `setAuthTag` + `final`,
returning `none` exactly when tag verification throws. -/
def decryptStep
    (deriveKey : String → List Nat → KdfParams → List Nat)
    (aeadDecrypt : List Nat → List Nat → List Nat → List Nat → Option (List Nat))
    (st : CollectState) (encBuffer : List Nat) (pass : String) :
    Except String (List Nat) :=
  if st.kdf.isNone || st.salt.isNone || st.nonce.isNone then
    .error "Crypto parameters are missing in QR payloads. Re-encode inline."
  else
    let key := deriveKey pass (st.salt.getD []) (st.kdf.getD ⟨0, 0, 0⟩)
    let tag := encBuffer.drop (encBuffer.length - 16)
    let ciphertext := encBuffer.take (encBuffer.length - 16)
    match aeadDecrypt key (st.nonce.getD []) ciphertext tag with
    | some dataBuf => .ok dataBuf
    | none => .error "Decryption failed. Wrong password or corrupted data."

/-- STEP 4 (lines 381–393): output file name. -/
def writeOutputName (archiveName archiveExt : Option String)
    (dataBuf : List Nat) : String :=
  let n0 := if jsTruthyS archiveName then archiveName.getD "" else "restored"
  let n1 :=
    if extname n0 = "" && jsTruthyS archiveExt then n0 ++ archiveExt.getD ""
    else n0
  if extname n1 = "" then
    n1 ++ (if guessExtension dataBuf ≠ "" then guessExtension dataBuf else ".bin")
  else n1

/-- The four decode steps composed; `.ok` carries the written file's name and
content, `.error` the message printed before `process.exit(1)` (so an error
result is precisely "no output file is written"). -/
def decodePipeline
    (deriveKey : String → List Nat → KdfParams → List Nat)
    (aeadDecrypt : List Nat → List Nat → List Nat → List Nat → Option (List Nat))
    (ms : List ChunkPayload) (pass : String) :
    Except String (String × List Nat) :=
  match collectInline ms with
  | .error e => .error e
  | .ok (st, chunks) =>
      match verifyAssemble chunks st.expectedTotal st.cipherSha256 with
      | .error e => .error e
      | .ok enc =>
          match decryptStep deriveKey aeadDecrypt st enc pass with
          | .error e => .error e
          | .ok dataBuf =>
              .ok (writeOutputName st.archiveName st.archiveExt dataBuf, dataBuf)

/-! ## Legacy fragment path (lines 322–344)

Only the per-fragment loop matters to the claims: a fragment of the wrong
type is skipped; otherwise its `data` is base64-decoded, hashed, and a hash
mismatch is immediately fatal (`process.exit(1)`) — the fragment is not merely
dropped.  (`file` is the fragment's on-disk basename, used in the message;
the loop's `name`/`ext` memoization is omitted here, no claim touches it.) -/

structure LegacyFragment where
  file : String
  type : String
  data : String
  hash : String
  chunk : Nat
deriving Repr, DecidableEq

def legacyStep (chunks : List (Option (List Nat))) (frag : LegacyFragment) :
    Except String (List (Option (List Nat))) :=
  if frag.type ≠ FRAGMENT_TYPE then .ok chunks
  else
    let buf := b64Decode frag.data
    let h := sha256Hex buf
    if h ≠ frag.hash then .error ("Chunk hash mismatch: " ++ frag.file)
    else .ok (jsSet chunks frag.chunk buf)

def legacyCollect (frags : List LegacyFragment) :
    Except String (List (Option (List Nat))) :=
  frags.foldlM legacyStep []

/-! ## Chunker arithmetic (claim C5) -/

theorem totalChunksOf_eq (cs len : Nat) (hcs : 0 < cs) (hlen : 0 < len) :
    totalChunksOf len cs = (len - 1) / cs + 1 := by
  unfold totalChunksOf
  have e : len + cs - 1 = (len - 1) + cs := by omega
  rw [e, Nat.add_div_right _ hcs]

theorem totalChunksOf_zero (cs : Nat) (hcs : 0 < cs) : totalChunksOf 0 cs = 0 := by
  unfold totalChunksOf
  have e : (0 : Nat) + cs - 1 = cs - 1 := by omega
  rw [e, Nat.div_eq_of_lt (by omega)]

theorem totalChunksOf_pos (cs len : Nat) (hcs : 0 < cs) (hlen : 0 < len) :
    0 < totalChunksOf len cs := by
  rw [totalChunksOf_eq cs len hcs hlen]
  exact Nat.succ_pos _

theorem le_mul_totalChunksOf (cs len : Nat) (hcs : 0 < cs) (hlen : 0 < len) :
    len ≤ cs * totalChunksOf len cs := by
  rw [totalChunksOf_eq cs len hcs hlen]
  have h := (Nat.div_lt_iff_lt_mul hcs).mp (Nat.lt_succ_self ((len - 1) / cs))
  calc len = (len - 1) + 1 := by omega
    _ ≤ ((len - 1) / cs + 1) * cs := h
    _ = cs * ((len - 1) / cs + 1) := Nat.mul_comm _ _

theorem mul_pred_totalChunksOf_lt (cs len : Nat) (hcs : 0 < cs) (hlen : 0 < len) :
    cs * (totalChunksOf len cs - 1) < len := by
  rw [totalChunksOf_eq cs len hcs hlen]
  simp only [Nat.add_sub_cancel]
  calc cs * ((len - 1) / cs) = (len - 1) / cs * cs := Nat.mul_comm _ _
    _ ≤ len - 1 := Nat.div_mul_le_self _ _
    _ < len := by omega

theorem totalChunksOf_succ (cs len : Nat) (hcs : 0 < cs) (hlen : 0 < len) :
    totalChunksOf len cs = totalChunksOf (len - cs) cs + 1 := by
  rcases Nat.lt_or_ge len (cs + 1) with h | h
  · have h0 : len - cs = 0 := by omega
    rw [h0, totalChunksOf_zero cs hcs, totalChunksOf_eq cs len hcs hlen,
      Nat.div_eq_of_lt (by omega)]
  · rw [totalChunksOf_eq cs len hcs hlen,
      totalChunksOf_eq cs (len - cs) hcs (by omega)]
    have e4 : len - 1 = (len - cs - 1) + cs := by omega
    rw [e4, Nat.add_div_right _ hcs]

theorem encChunks_cons (frame : List Nat) (cs : Nat) (hcs : 0 < cs)
    (hne : frame ≠ []) :
    encChunks frame cs = frame.take cs :: encChunks (frame.drop cs) cs := by
  have hlen : 0 < frame.length := List.length_pos.mpr hne
  have htc : totalChunksOf frame.length cs =
      totalChunksOf (frame.drop cs).length cs + 1 := by
    rw [List.length_drop]
    exact totalChunksOf_succ cs frame.length hcs hlen
  unfold encChunks
  rw [htc, List.range_succ_eq_map, List.map_cons, List.map_map]
  refine congrArg₂ _ ?_ ?_
  · simp [sliceChunk]
  · refine List.map_congr_left fun x _ => ?_
    simp only [Function.comp_apply, sliceChunk, List.drop_drop]
    have e : x.succ * cs = cs + x * cs := by
      simp [Nat.succ_mul]; ring
    rw [e]

theorem encChunks_flatten (frame : List Nat) (cs : Nat) (hcs : 0 < cs) :
    (encChunks frame cs).flatten = frame := by
  have main : ∀ n (l : List Nat), l.length ≤ n → (encChunks l cs).flatten = l := by
    intro n
    induction n with
    | zero =>
      intro l hl
      have : l = [] := List.eq_nil_of_length_eq_zero (by omega)
      subst this
      simp [encChunks, totalChunksOf_zero cs hcs]
    | succ n ih =>
      intro l hl
      rcases eq_or_ne l [] with rfl | hne
      · simp [encChunks, totalChunksOf_zero cs hcs]
      · rw [encChunks_cons l cs hcs hne, List.flatten_cons,
          ih (l.drop cs) (by simp only [List.length_drop]; omega),
          List.take_append_drop]
  exact main frame.length frame le_rfl

theorem encChunks_getD (frame : List Nat) (cs i : Nat)
    (h : i < totalChunksOf frame.length cs) :
    (encChunks frame cs).getD i [] = sliceChunk frame cs i := by
  unfold encChunks
  rw [List.getD_eq_getElem?_getD, List.getElem?_map, List.getElem?_range h]
  rfl

/-- **C5** — For every ciphertext frame of length `len > 0` and chunk size
`cs > 0`, the encoder emits `total = ⌈len/cs⌉` chunks (`totalChunksOf` is the
ceiling: `cs·(total−1) < len ≤ cs·total`); chunk `i` is exactly the frame
slice `[i·cs, min((i+1)·cs, len))`; the last chunk's length is
`len − (total−1)·cs`, which lies in `(0, cs]`; and concatenating the chunks in
index order reproduces the frame. -/
theorem chunker_correct (frame : List Nat) (cs : Nat)
    (hcs : 0 < cs) (hlen : 0 < frame.length) :
    (encChunks frame cs).length = totalChunksOf frame.length cs ∧
    cs * (totalChunksOf frame.length cs - 1) < frame.length ∧
    frame.length ≤ cs * totalChunksOf frame.length cs ∧
    (∀ i, i < totalChunksOf frame.length cs →
      (encChunks frame cs).getD i [] =
        (frame.drop (i * cs)).take (min ((i + 1) * cs) frame.length - i * cs)) ∧
    ((encChunks frame cs).getD (totalChunksOf frame.length cs - 1) []).length =
      frame.length - (totalChunksOf frame.length cs - 1) * cs ∧
    0 < frame.length - (totalChunksOf frame.length cs - 1) * cs ∧
    frame.length - (totalChunksOf frame.length cs - 1) * cs ≤ cs ∧
    (encChunks frame cs).flatten = frame := by
  have hub := le_mul_totalChunksOf cs frame.length hcs hlen
  have hlb := mul_pred_totalChunksOf_lt cs frame.length hcs hlen
  have htpos : 0 < totalChunksOf frame.length cs :=
    totalChunksOf_pos cs frame.length hcs hlen
  have hmulc : cs * (totalChunksOf frame.length cs - 1) =
      (totalChunksOf frame.length cs - 1) * cs := Nat.mul_comm _ _
  have hsplit : cs * totalChunksOf frame.length cs =
      (totalChunksOf frame.length cs - 1) * cs + cs := by
    have hT : totalChunksOf frame.length cs =
        (totalChunksOf frame.length cs - 1) + 1 := by omega
    calc cs * totalChunksOf frame.length cs
        = totalChunksOf frame.length cs * cs := Nat.mul_comm _ _
      _ = ((totalChunksOf frame.length cs - 1) + 1) * cs := by rw [← hT]
      _ = (totalChunksOf frame.length cs - 1) * cs + cs := by ring
  have hslice : ∀ i, i < totalChunksOf frame.length cs →
      (encChunks frame cs).getD i [] =
        (frame.drop (i * cs)).take (min ((i + 1) * cs) frame.length - i * cs) := by
    intro i hi
    rw [encChunks_getD frame cs i hi]
    unfold sliceChunk
    have hic2 : i * cs < frame.length := by
      calc i * cs ≤ (totalChunksOf frame.length cs - 1) * cs :=
            Nat.mul_le_mul_right cs (by omega)
        _ = cs * (totalChunksOf frame.length cs - 1) := Nat.mul_comm _ _
        _ < frame.length := hlb
    rw [List.take_eq_take]
    simp only [List.length_take, List.length_drop]
    have e : (i + 1) * cs = i * cs + cs := by ring
    rw [e]
    omega
  refine ⟨by simp [encChunks], hlb, hub, hslice, ?_, ?_, ?_,
    encChunks_flatten frame cs hcs⟩
  · rw [hslice (totalChunksOf frame.length cs - 1) (by omega)]
    simp only [List.length_take, List.length_drop]
    have e : (totalChunksOf frame.length cs - 1 + 1) * cs =
        (totalChunksOf frame.length cs - 1) * cs + cs := by ring
    rw [e]
    omega
  · omega
  · omega

/-- The claim's analytical formula, written as the spec words it: the QR
version-40 byte capacity for the ECL, minus the JSON overhead, times `3/4`,
times `0.98`, floored, clamped to a floor of 512 bytes. -/
def chunkSizeFormula (capacity overhead : Nat) : Nat :=
  max 512 (Nat.floor (((capacity - overhead : Nat) : ℚ) * 3 / 4 * 0.98))

theorem floor_098 (n : Nat) :
    Nat.floor ((n : ℚ) * 3 / 4 * 0.98) = n * 147 / 200 := by
  have h : ((n : ℚ) * 3 / 4 * 0.98) = ((n * 147 : ℕ) : ℚ) / ((200 : ℕ) : ℚ) := by
    rw [show (0.98 : ℚ) = 49 / 50 by norm_num]
    push_cast
    ring
  rw [h, Nat.floor_div_nat, Nat.floor_natCast]

theorem chunkSizeFormula_eq_idealChunk (c o : Nat) :
    chunkSizeFormula c o = idealChunk (c - o) := by
  rw [chunkSizeFormula, idealChunk, floor_098]

/-- **C6** — With no `CHUNK_SIZE` override, the encoder's chunk size is
`max(512, ⌊(C(ECL) − overhead)·3/4·0.98⌋)` where `C` is the QR version-40 byte
capacity table (`L=2953, M=2331, Q=1663, H=1273`, with the `Q` value as the
fallback for unknown levels) and `overhead` is the UTF-8 byte length of the
JSON of the payload with empty `dataB64`; a configured `CHUNK_SIZE` is used
instead ( `encodeSession` computes its chunk size exactly as
`chunkSizeOf envChunkSize (idealChunk (maxBytesFor ecl − overhead))` after
`calibrate` succeeds).  The float expression
`Math.floor(maxDataB64 * 3 / 4 * 0.98)` agrees with the exact rational floor
on the whole relevant domain; see `idealChunk`. -/
theorem chunk_size_calibration (ecl : String) (meta : ChunkPayload)
    (envChunkSize : Option Nat)
    (hcap : (strToBytes (payloadJsonString { meta with dataB64 := "" })).length <
      maxBytesFor ecl) :
    (CAPACITY "L" = some 2953 ∧ CAPACITY "M" = some 2331 ∧
      CAPACITY "Q" = some 1663 ∧ CAPACITY "H" = some 1273) ∧
    calibrate ecl meta =
      .ok (maxBytesFor ecl -
        (strToBytes (payloadJsonString { meta with dataB64 := "" })).length) ∧
    chunkSizeOf envChunkSize
        (idealChunk (maxBytesFor ecl -
          (strToBytes (payloadJsonString { meta with dataB64 := "" })).length)) =
      match envChunkSize with
      | some v => v
      | none =>
          chunkSizeFormula (maxBytesFor ecl)
            (strToBytes (payloadJsonString { meta with dataB64 := "" })).length := by
  refine ⟨⟨rfl, rfl, rfl, rfl⟩, ?_, ?_⟩
  · unfold calibrate
    rw [if_neg (by omega)]
  · cases envChunkSize with
    | some v => rfl
    | none =>
        simp only [chunkSizeOf, Option.getD]
        exact (chunkSizeFormula_eq_idealChunk _ _).symm

set_option maxRecDepth 40000 in
/-- Witness for C6: a concrete session metadata record under ECL `Q` with no
override; the capacity bound holds and the theorem applies. -/
theorem chunk_size_calibration_witness :
    ((strToBytes (payloadJsonString
        { baseMeta "doc" ".txt" (String.mk (List.replicate 64 'a')) ⟨32768, 8, 4⟩
            "c2FsdHNhbHRzYWx0c2E=" "bm9uY2Vub25jZW5vbg==" with
          dataB64 := "" })).length < maxBytesFor "Q") ∧
    (calibrate "Q"
        (baseMeta "doc" ".txt" (String.mk (List.replicate 64 'a')) ⟨32768, 8, 4⟩
          "c2FsdHNhbHRzYWx0c2E=" "bm9uY2Vub25jZW5vbg==") =
      .ok (maxBytesFor "Q" -
        (strToBytes (payloadJsonString
          { baseMeta "doc" ".txt" (String.mk (List.replicate 64 'a')) ⟨32768, 8, 4⟩
              "c2FsdHNhbHRzYWx0c2E=" "bm9uY2Vub25jZW5vbg==" with
            dataB64 := "" })).length) ∧
      chunkSizeOf none
          (idealChunk (maxBytesFor "Q" -
            (strToBytes (payloadJsonString
              { baseMeta "doc" ".txt" (String.mk (List.replicate 64 'a')) ⟨32768, 8, 4⟩
                  "c2FsdHNhbHRzYWx0c2E=" "bm9uY2Vub25jZW5vbg==" with
                dataB64 := "" })).length)) =
        chunkSizeFormula (maxBytesFor "Q")
          (strToBytes (payloadJsonString
            { baseMeta "doc" ".txt" (String.mk (List.replicate 64 'a')) ⟨32768, 8, 4⟩
                "c2FsdHNhbHRzYWx0c2E=" "bm9uY2Vub25jZW5vbg==" with
              dataB64 := "" })).length) :=
  ⟨by decide,
    ((chunk_size_calibration "Q"
      (baseMeta "doc" ".txt" (String.mk (List.replicate 64 'a')) ⟨32768, 8, 4⟩
        "c2FsdHNhbHRzYWx0c2E=" "bm9uY2Vub25jZW5vbg==") none (by decide)).2.1),
    ((chunk_size_calibration "Q"
      (baseMeta "doc" ".txt" (String.mk (List.replicate 64 'a')) ⟨32768, 8, 4⟩
        "c2FsdHNhbHRzYWx0c2E=" "bm9uY2Vub25jZW5vbg==") none (by decide)).2.2)⟩

/-- Witness for C5 at a concrete input: a 5-byte frame with chunk size 2
splits into 3 chunks `[1,2] [3,4] [5]`. -/
theorem chunker_correct_witness :
    (0 < 2 ∧ 0 < ([1, 2, 3, 4, 5] : List Nat).length) ∧
    encChunks [1, 2, 3, 4, 5] 2 = [[1, 2], [3, 4], [5]] ∧
    ((encChunks [1, 2, 3, 4, 5] 2).length = totalChunksOf 5 2 ∧
      (encChunks [1, 2, 3, 4, 5] 2).flatten = [1, 2, 3, 4, 5]) := by
  refine ⟨⟨by decide, by decide⟩, by decide, ?_, ?_⟩
  · exact (chunker_correct [1, 2, 3, 4, 5] 2 (by decide) (by decide)).1
  · exact (chunker_correct [1, 2, 3, 4, 5] 2 (by decide) (by decide)).2.2.2.2.2.2.2

/-! ## Claim C9 — output naming -/

/-- **C9** — On successful decode the output file name is `<name><ext>`: the
memoized `name` is kept as-is when it already has an extension of its own; the
memoized `ext` is appended when it does not; and when `ext` is absent the
extension comes from magic-number detection over the decrypted bytes, with
fallback `.bin`.  (`writeOutputName` is step 4 of `decode`.) -/
theorem output_naming (name : String) (e : Option String) (data : List Nat)
    (hname : name ≠ "") :
    (extname name ≠ "" → writeOutputName (some name) e data = name) ∧
    (∀ s, extname name = "" → e = some s → s ≠ "" → extname (name ++ s) ≠ "" →
      writeOutputName (some name) e data = name ++ s) ∧
    (extname name = "" → jsTruthyS e = false →
      writeOutputName (some name) e data =
        name ++ (if guessExtension data ≠ "" then guessExtension data else ".bin")) := by
  refine ⟨?_, ?_, ?_⟩
  · intro hext
    simp [writeOutputName, jsTruthyS, hname, hext]
  · intro s hne he hs hcat
    subst he
    simp [writeOutputName, jsTruthyS, hname, hne, hs, hcat]
  · intro hne hfal
    have htr : jsTruthyS (some name) = true := by simp [jsTruthyS, hname]
    simp [writeOutputName, htr, hfal, hne]

/-- Witness for C9: name `report` with ext `.pdf` gives `report.pdf`; with ext
absent and PNG magic bytes, `report.png`; with ext absent and unknown bytes,
`report.bin`. -/
theorem output_naming_witness :
    ("report" ≠ "" ∧ extname "report" = "") ∧
    writeOutputName (some "report") (some ".pdf") [] = "report.pdf" ∧
    writeOutputName (some "report") none
        [0x89, 0x50, 0x4e, 0x47, 0x0d, 0x0a, 0x1a, 0x0a, 1, 2] = "report.png" ∧
    writeOutputName (some "report") none [7, 7, 7, 7] = "report.bin" := by
  refine ⟨⟨by decide, by decide⟩, ?_, ?_, ?_⟩
  · exact (output_naming "report" (some ".pdf") [] (by decide)).2.1 ".pdf"
      (by decide) rfl (by decide) (by decide)
  · have h := (output_naming "report" none
      [0x89, 0x50, 0x4e, 0x47, 0x0d, 0x0a, 0x1a, 0x0a, 1, 2] (by decide)).2.2
      (by decide) (by decide)
    rw [h]
    decide
  · have h := (output_naming "report" none [7, 7, 7, 7] (by decide)).2.2
      (by decide) (by decide)
    rw [h]
    decide

/-! ## Claim C2 — per-chunk hash verification -/

/-- A syntactically well-formed inline payload whose `hash` field (8 chars)
cannot be the SHA-256 of its data (digests have 64 hex chars). -/
def cxPayloadC2 : ChunkPayload :=
  { type := "GitZipQR-CHUNK-ENC"
    version := "3.1-inline-only"
    fileId := "00112233aabbccdd"
    name := "doc"
    ext := ".txt"
    chunk := 0
    total := 1
    hash := "deadbeef"
    cipherHash := ""
    kdfParams := none
    saltB64 := ""
    nonceB64 := ""
    chunkSize := 512
    dataB64 := b64Encode [1, 2, 3]
    part := none
    partTotal := none }

/-- **C2 (counterexample)** — a payload whose `hash` field does not match the
SHA-256 of its base64-decoded data is nevertheless accepted by the inline
decoder and its bytes are stored as chunk data (no warning, no drop): the
inline path of `decode` never computes a per-chunk hash. -/
theorem chunk_hash_not_verified_counterexample :
    cxPayloadC2.hash ≠ sha256Hex (b64Decode cxPayloadC2.dataB64) ∧
    (collectInline [cxPayloadC2]).map (fun r => jsGet r.2 0) = .ok (some [1, 2, 3]) := by
  constructor
  · intro h
    have hlen := congrArg String.length h
    rw [sha256Hex_length] at hlen
    exact absurd hlen (by decide)
  · rfl

/-- **C2 (amended)** — The inline decoder performs no per-chunk hash check at
all: its accumulation step is invariant under arbitrary changes of the `hash`
field.  Only the legacy `*.bin.json` path verifies `SHA-256(data)` against
`hash`, and a mismatch there is immediately fatal (`process.exit(1)`), not a
dropped-with-warning payload. -/
theorem chunk_hash_handling (st : CollectState) (m : ChunkPayload) (h' : String)
    (chunks : List (Option (List Nat))) (frag : LegacyFragment)
    (hmm : sha256Hex (b64Decode frag.data) ≠ frag.hash)
    (ht : frag.type = FRAGMENT_TYPE) :
    stepCollect st { m with hash := h' } = stepCollect st m ∧
    legacyStep chunks frag = .error ("Chunk hash mismatch: " ++ frag.file) := by
  constructor
  · simp [stepCollect]
  · simp [legacyStep, ht, hmm]

/-- A legacy fragment whose `hash` does not match its data's SHA-256. -/
def cxFragC2 : LegacyFragment :=
  { file := "qr-000000.bin.json"
    type := "GitZipQR-CHUNK-ENC"
    data := ""
    hash := "nope"
    chunk := 0 }

/-! ## Claim C3 — conflicting session fields -/

/-- Concrete stand-ins for the crypto primitives used by closed evaluations:
a key derivation ignoring its inputs and a decryption that accepts any tag. -/
def cxDerive : String → List Nat → KdfParams → List Nat := fun _ _ _ => []

def cxDecrypt : List Nat → List Nat → List Nat → List Nat → Option (List Nat) :=
  fun _ _ ct _ => some ct

/-- First payload of a decode session (chunk 0 of 2). -/
def cxQ1 : ChunkPayload :=
  { type := "GitZipQR-CHUNK-ENC"
    version := "3.1-inline-only"
    fileId := "f1f1f1f1f1f1f1f1"
    name := "good"
    ext := ".zip"
    chunk := 0
    total := 2
    hash := ""
    cipherHash := ""
    kdfParams := some ⟨2, 2, 2⟩
    saltB64 := b64Encode [1]
    nonceB64 := b64Encode [2]
    chunkSize := 4
    dataB64 := b64Encode [1, 2, 3, 4]
    part := none
    partTotal := none }

/-- Second payload: same session, but it disagrees with `cxQ1` on the
session-level `name` field. -/
def cxQ2 : ChunkPayload :=
  { cxQ1 with
    name := "evil"
    chunk := 1
    dataB64 := b64Encode [5, 6, 7, 8, 9, 10, 11, 12, 13, 14, 15, 16] }

/-- **C3 (counterexample)** — two payloads of one decode session that disagree
on the session-level `name` field are both consumed without any error: the
data of both is stored and assembled, and the whole decode completes
successfully (the conflicting value is silently ignored, first-wins). -/
theorem session_conflict_counterexample :
    cxQ1.name ≠ cxQ2.name ∧
    (collectInline [cxQ1, cxQ2]).map (fun r => (jsGet r.2 0, jsGet r.2 1)) =
      .ok (some (b64Decode cxQ1.dataB64), some (b64Decode cxQ2.dataB64)) ∧
    decodePipeline cxDerive cxDecrypt [cxQ1, cxQ2] "password" = .ok ("good.zip", []) := by
  refine ⟨by decide, rfl, rfl⟩

theorem accLookup_accUpdate_self (k : String × Nat) (e : Entry)
    (l : List ((String × Nat) × Entry)) :
    accLookup k (accUpdate k e l) = some e := by
  induction l with
  | nil => simp [accUpdate, accLookup]
  | cons h t ih =>
    obtain ⟨k', e'⟩ := h
    by_cases hk : k' = k
    · subst hk
      simp [accUpdate, accLookup]
    · simp [accUpdate, accLookup, hk, ih]

/-- **C3 (amended)** — Session-level fields are memoized first-wins: a payload
that disagrees with the already-memoized values is not rejected — its chunk
data is still recorded under its `(fileId, chunk)` key, and every memoized
field that is already truthy keeps its previous value, the payload's
conflicting value being ignored. -/
theorem session_fields_first_wins (st : CollectState) (m : ChunkPayload)
    (htype : m.type = FRAGMENT_TYPE) (hdata : m.dataB64 ≠ "") :
    accLookup (m.fileId, m.chunk) (stepCollect st m).acc =
      some ⟨jsSet ((accLookup (m.fileId, m.chunk) st.acc).getD
          ⟨[], jsOr1 m.partTotal⟩).parts (m.part.getD 0) m.dataB64,
        jsOr1 m.partTotal⟩ ∧
    (jsTruthyS st.archiveName = true →
      (stepCollect st m).archiveName = st.archiveName) ∧
    (jsTruthyS st.archiveExt = true →
      (stepCollect st m).archiveExt = st.archiveExt) ∧
    (jsTruthyS st.cipherSha256 = true →
      (stepCollect st m).cipherSha256 = st.cipherSha256) ∧
    (st.kdf.isSome = true → (stepCollect st m).kdf = st.kdf) ∧
    (st.salt.isSome = true → (stepCollect st m).salt = st.salt) ∧
    (st.nonce.isSome = true → (stepCollect st m).nonce = st.nonce) ∧
    (jsTruthyN st.expectedTotal = true →
      (stepCollect st m).expectedTotal = st.expectedTotal) := by
  unfold stepCollect
  rw [if_neg (by simp [htype]), if_neg (by simp [hdata])]
  refine ⟨accLookup_accUpdate_self _ _ _, ?_, ?_, ?_, ?_, ?_, ?_, ?_⟩ <;>
    intro h <;> simp [h]

/-- Witness for C3 (amended): applying the first-wins lemma to a state that
already memoized `name := "good"` and the conflicting payload `cxQ2`. -/
theorem session_fields_first_wins_witness :
    (cxQ2.type = FRAGMENT_TYPE ∧ cxQ2.dataB64 ≠ "") ∧
    (jsTruthyS (stepCollect initCollect cxQ1).archiveName = true ∧
      (stepCollect initCollect cxQ1).archiveName = some "good" ∧ cxQ2.name = "evil") ∧
    (stepCollect (stepCollect initCollect cxQ1) cxQ2).archiveName =
      (stepCollect initCollect cxQ1).archiveName :=
  ⟨⟨by decide, by decide⟩, ⟨by decide, by decide, by decide⟩,
    (session_fields_first_wins (stepCollect initCollect cxQ1) cxQ2
      (by decide) (by decide)).2.1 (by decide)⟩

/-! ## Claim C7 — missing chunks -/

/-- A lone chunk-0 payload of a 2-chunk session. -/
def cxR0 : ChunkPayload :=
  { cxQ1 with
    fileId := "a0a0a0a0a0a0a0a0"
    name := "r"
    dataB64 := b64Encode [1, 2] }

/-- A lone chunk-1 payload of the same shape of session. -/
def cxR1 : ChunkPayload := { cxR0 with chunk := 1 }

/-- **C7 (counterexample)** — when chunks are missing the decode is fatal, but
the message carries only the present/expected counts: two sessions whose
missing index sets differ (`{1}` vs `{0}`) produce the identical message
`Missing chunks: 1/2` — the list of missing chunk indices is not reported. -/
theorem missing_chunks_message_counterexample :
    cxR0.chunk ≠ cxR1.chunk ∧
    decodePipeline cxDerive cxDecrypt [cxR0] "password" =
      .error "Missing chunks: 1/2" ∧
    decodePipeline cxDerive cxDecrypt [cxR1] "password" =
      .error "Missing chunks: 1/2" := by
  refine ⟨by decide, rfl, rfl⟩

/-- **C7 (amended)** — If, after all inputs are processed, the number of chunk
indices present differs from the memoized total, decode is fatal with the
present/expected counts in the message; no ciphertext frame is assembled and
no output file is written (the pipeline stops with this error). -/
theorem missing_chunks_fatal
    (deriveKey : String → List Nat → KdfParams → List Nat)
    (aeadDecrypt : List Nat → List Nat → List Nat → List Nat → Option (List Nat))
    (ms : List ChunkPayload) (pass : String) (st : CollectState)
    (chunks : List (Option (List Nat)))
    (hc : collectInline ms = .ok (st, chunks))
    (ht : jsTruthyN st.expectedTotal = true)
    (hm : (chunks.filterMap id).length ≠ st.expectedTotal.getD 0) :
    decodePipeline deriveKey aeadDecrypt ms pass =
      .error ("Missing chunks: " ++ toString (chunks.filterMap id).length ++ "/" ++
        toString (st.expectedTotal.getD 0)) := by
  unfold decodePipeline verifyAssemble
  rw [hc]
  simp [ht, hm]

/-- Witness for C7 (amended): the single-payload session `[cxR0]`. -/
theorem missing_chunks_fatal_witness :
    (collectInline [cxR0] = .ok
        (⟨[(("a0a0a0a0a0a0a0a0", 0), ⟨[some (b64Encode [1, 2])], 1⟩)],
          some "r", some ".zip", some "", some ⟨2, 2, 2⟩, some [1], some [2],
          some 2⟩,
        [some [1, 2]]) ∧
      jsTruthyN (some (2 : Nat)) = true ∧
      (([some [1, 2]] : List (Option (List Nat))).filterMap id).length ≠
        (some (2 : Nat)).getD 0) ∧
    decodePipeline cxDerive cxDecrypt [cxR0] "password" =
      .error ("Missing chunks: " ++ toString
        (([some [1, 2]] : List (Option (List Nat))).filterMap id).length ++ "/" ++
        toString ((some (2 : Nat)).getD 0)) :=
  ⟨⟨rfl, by decide, by decide⟩,
    missing_chunks_fatal cxDerive cxDecrypt [cxR0] "password" _ _ rfl
      (by decide) (by decide)⟩

/-! ## Claim C10 — multi-part chunks (`part`/`partTotal`)

Helper characterizations of the fold over a single `(fileId, chunk)` key. -/

def entryFold (e : Entry) (ms : List ChunkPayload) : Entry :=
  ms.foldl (fun e m => ⟨jsSet e.parts (m.part.getD 0) m.dataB64, jsOr1 m.partTotal⟩) e

def partsUB : List ChunkPayload → Nat
  | [] => 0
  | m :: r => max (m.part.getD 0 + 1) (partsUB r)

theorem jsGet_nil {α : Type} (i : Nat) : jsGet ([] : List (Option α)) i = none := by
  simp [jsGet]

theorem jsGet_of_length_le {α : Type} (l : List (Option α)) (i : Nat)
    (h : l.length ≤ i) : jsGet l i = none := by
  simp [jsGet, List.getD, List.getElem?_eq_none h]

theorem jsGet_lt_of_some {α : Type} (l : List (Option α)) (i : Nat) (v : α)
    (h : jsGet l i = some v) : i < l.length := by
  by_contra hcon
  rw [jsGet_of_length_le l i (by omega)] at h
  exact Option.noConfusion h

theorem collect_single_key_acc (fid : String) (c : Nat) :
    ∀ (ms : List ChunkPayload) (st : CollectState) (e₀ : Entry),
      (∀ m ∈ ms, m.type = FRAGMENT_TYPE ∧ m.dataB64 ≠ "" ∧ m.fileId = fid ∧
        m.chunk = c) →
      st.acc = [((fid, c), e₀)] →
      (ms.foldl stepCollect st).acc = [((fid, c), entryFold e₀ ms)] := by
  intro ms
  induction ms with
  | nil => intro st e₀ _ hst; simpa [entryFold] using hst
  | cons m r ih =>
    intro st e₀ hall hst
    obtain ⟨htype, hdata, hfid, hchunk⟩ := hall m (by simp)
    have hstep : (stepCollect st m).acc =
        [((fid, c), ⟨jsSet e₀.parts (m.part.getD 0) m.dataB64, jsOr1 m.partTotal⟩)] := by
      unfold stepCollect
      rw [if_neg (by simp [htype]), if_neg (by simp [hdata])]
      simp [hfid, hchunk, hst, accLookup, accUpdate]
    have := ih (stepCollect st m)
      ⟨jsSet e₀.parts (m.part.getD 0) m.dataB64, jsOr1 m.partTotal⟩
      (fun x hx => hall x (by simp [hx])) hstep
    simpa [entryFold, List.foldl_cons] using this

theorem collect_single_key_acc_from_init (fid : String) (c : Nat)
    (m : ChunkPayload) (r : List ChunkPayload)
    (hall : ∀ x ∈ m :: r, x.type = FRAGMENT_TYPE ∧ x.dataB64 ≠ "" ∧
      x.fileId = fid ∧ x.chunk = c) :
    ((m :: r).foldl stepCollect initCollect).acc =
      [((fid, c), entryFold ⟨[], jsOr1 m.partTotal⟩ (m :: r))] := by
  obtain ⟨htype, hdata, hfid, hchunk⟩ := hall m (by simp)
  have hstep : (stepCollect initCollect m).acc =
      [((fid, c), ⟨jsSet [] (m.part.getD 0) m.dataB64, jsOr1 m.partTotal⟩)] := by
    unfold stepCollect
    rw [if_neg (by simp [htype]), if_neg (by simp [hdata])]
    simp only [hfid, hchunk, initCollect, accLookup, Option.getD_none, accUpdate]
  have := collect_single_key_acc fid c r (stepCollect initCollect m)
    ⟨jsSet [] (m.part.getD 0) m.dataB64, jsOr1 m.partTotal⟩
    (fun x hx => hall x (by simp [hx])) hstep
  simpa [entryFold, List.foldl_cons] using this

theorem entryFold_parts_get (pdata : Nat → String) :
    ∀ (ms : List ChunkPayload) (e : Entry),
      (∀ m ∈ ms, m.dataB64 = pdata (m.part.getD 0)) →
      ∀ j, jsGet (entryFold e ms).parts j =
        if j ∈ ms.map (fun m => m.part.getD 0) then some (pdata j)
        else jsGet e.parts j := by
  intro ms
  induction ms with
  | nil => intro e _ j; simp [entryFold]
  | cons m r ih =>
    intro e hv j
    have hd : m.dataB64 = pdata (m.part.getD 0) := hv m (by simp)
    have ih' := ih ⟨jsSet e.parts (m.part.getD 0) m.dataB64, jsOr1 m.partTotal⟩
      (fun x hx => hv x (by simp [hx])) j
    rw [show entryFold e (m :: r) =
      entryFold ⟨jsSet e.parts (m.part.getD 0) m.dataB64, jsOr1 m.partTotal⟩ r
      from rfl]
    rw [ih']
    by_cases hr : j ∈ r.map (fun m => m.part.getD 0)
    · simp [hr]
    · by_cases hj : j = m.part.getD 0
      · subst hj
        simp [hr, jsGet_jsSet_self, hd]
      · have : jsGet (jsSet e.parts (m.part.getD 0) m.dataB64) j = jsGet e.parts j :=
          jsGet_jsSet_ne _ _ _ _ (fun h => hj h.symm)
        simp [hr, hj, this]

theorem entryFold_total (t : Nat) :
    ∀ (ms : List ChunkPayload) (e : Entry), ms ≠ [] →
      (∀ m ∈ ms, m.partTotal = some t) → (entryFold e ms).total = jsOr1 (some t) := by
  intro ms
  induction ms with
  | nil => intro e h; exact absurd rfl h
  | cons m r ih =>
    intro e _ hall
    rcases eq_or_ne r [] with rfl | hr
    · have hm := hall m (by simp)
      simp [entryFold, hm]
    · have := ih ⟨jsSet e.parts (m.part.getD 0) m.dataB64, jsOr1 m.partTotal⟩ hr
        (fun x hx => hall x (by simp [hx]))
      simpa [entryFold, List.foldl_cons] using this

theorem entryFold_parts_length :
    ∀ (ms : List ChunkPayload) (e : Entry),
      (entryFold e ms).parts.length = max e.parts.length (partsUB ms) := by
  intro ms
  induction ms with
  | nil => intro e; simp [entryFold, partsUB]
  | cons m r ih =>
    intro e
    have := ih ⟨jsSet e.parts (m.part.getD 0) m.dataB64, jsOr1 m.partTotal⟩
    rw [show entryFold e (m :: r) =
      entryFold ⟨jsSet e.parts (m.part.getD 0) m.dataB64, jsOr1 m.partTotal⟩ r
      from rfl, this]
    simp only [jsSet_length, partsUB]
    omega

theorem partsUB_le (t : Nat) (ms : List ChunkPayload)
    (h : ∀ m ∈ ms, m.part.getD 0 + 1 ≤ t) : partsUB ms ≤ t := by
  induction ms with
  | nil => simp [partsUB]
  | cons m r ih =>
    simp only [partsUB]
    have h1 := h m (by simp)
    have h2 := ih (fun x hx => h x (by simp [hx]))
    omega

theorem list_ext_jsGet {α : Type} :
    ∀ (l₁ l₂ : List (Option α)), l₁.length = l₂.length →
      (∀ i, jsGet l₁ i = jsGet l₂ i) → l₁ = l₂ := by
  intro l₁
  induction l₁ with
  | nil =>
    intro l₂ hlen _
    exact (List.eq_nil_of_length_eq_zero hlen.symm).symm
  | cons a t ih =>
    intro l₂ hlen hget
    cases l₂ with
    | nil => simp at hlen
    | cons b u =>
      have h0 := hget 0
      simp [jsGet] at h0
      have ht : t = u := by
        refine ih u (by simpa using hlen) fun i => ?_
        have := hget (i + 1)
        simpa [jsGet, List.getD, List.getElem?_cons_succ] using this
      rw [ht, h0]

theorem find?_range_first (pred : Nat → Bool) :
    ∀ (t p₀ : Nat), p₀ < t → (∀ q < p₀, pred q = false) → pred p₀ = true →
      (List.range t).find? pred = some p₀ := by
  intro t
  induction t with
  | zero => intro p₀ h; omega
  | succ s ih =>
    intro p₀ hp hbefore hat
    rw [List.range_succ, List.find?_append]
    rcases Nat.lt_or_ge p₀ s with h | h
    · rw [ih p₀ h hbefore hat]
      rfl
    · have hps : p₀ = s := by omega
      subst hps
      have hnone : (List.range p₀).find? pred = none := by
        rw [List.find?_eq_none]
        intro x hx
        rw [hbefore x (List.mem_range.mp hx)]
        simp
      rw [hnone]
      simp [List.find?, hat]

theorem string_join_singleton (s : String) : String.join [s] = s := rfl

/-- Session payloads carrying split chunks: same `(fileId, chunk)`, numeric
`part` and `partTotal`, data determined by the part index. -/
def partShaped (fid : String) (c t : Nat) (pdata : Nat → String)
    (m : ChunkPayload) : Prop :=
  m.type = FRAGMENT_TYPE ∧ m.dataB64 ≠ "" ∧ m.fileId = fid ∧ m.chunk = c ∧
    m.partTotal = some t ∧ m.part.isSome = true ∧ m.part.getD 0 < t ∧
    m.dataB64 = pdata (m.part.getD 0)

instance (fid : String) (c t : Nat) (pdata : Nat → String) (m : ChunkPayload) :
    Decidable (partShaped fid c t pdata m) := by
  unfold partShaped
  infer_instance

theorem jsOr1_some_pos (t : Nat) (h : 0 < t) : jsOr1 (some t) = t := by
  cases t with
  | zero => omega
  | succ n => rfl

/-- **C10** — The decoder accepts split chunks: a payload with numeric `part`
and `partTotal` is recorded as part number `part` of its `(fileId, chunk)`
entry; when every part index below `partTotal` is present, the parts are
joined in part order and the chunk bytes are the base64 decoding of that
joined string; when a part is missing, decode exits fatally naming the (first)
missing part. -/
theorem split_chunks_decoding (fid : String) (c t : Nat) (pdata : Nat → String)
    (ms : List ChunkPayload) (hne : ms ≠ [])
    (hall : ∀ m ∈ ms, partShaped fid c t pdata m) (ht : 0 < t) :
    (∀ st m, m ∈ ms → ∀ p, m.part = some p →
      ∃ e, accLookup (fid, c) (stepCollect st m).acc = some e ∧
        jsGet e.parts p = some m.dataB64) ∧
    ((∀ p < t, ∃ m ∈ ms, m.part = some p) →
      (collectInline ms).map (fun r => r.2) =
        .ok (jsSet [] c (b64Decode (String.join ((List.range t).map pdata))))) ∧
    (∀ p₀ < t, (∀ m ∈ ms, m.part ≠ some p₀) →
      (∀ q < p₀, ∃ m ∈ ms, m.part = some q) →
      collectInline ms =
        .error ("Missing QR part " ++ toString (p₀ + 1) ++ "/" ++ toString t ++
          " for " ++ fid ++ ":" ++ toString c)) := by
  obtain ⟨m₁, r, rfl⟩ : ∃ m₁ r, ms = m₁ :: r := by
    cases ms with
    | nil => exact absurd rfl hne
    | cons a b => exact ⟨a, b, rfl⟩
  have hbasic : ∀ m ∈ m₁ :: r, m.type = FRAGMENT_TYPE ∧ m.dataB64 ≠ "" ∧
      m.fileId = fid ∧ m.chunk = c := by
    intro m hm
    obtain ⟨h1, h2, h3, h4, _⟩ := hall m hm
    exact ⟨h1, h2, h3, h4⟩
  have hacc := collect_single_key_acc_from_init fid c m₁ r hbasic
  have hEtotal : (entryFold ⟨[], jsOr1 m₁.partTotal⟩ (m₁ :: r)).total = t := by
    rw [entryFold_total t (m₁ :: r) _ (by simp)
      (fun m hm => (hall m hm).2.2.2.2.1)]
    exact jsOr1_some_pos t ht
  have hEget : ∀ j, jsGet (entryFold ⟨[], jsOr1 m₁.partTotal⟩ (m₁ :: r)).parts j =
      if j ∈ (m₁ :: r).map (fun m => m.part.getD 0) then some (pdata j)
      else none := by
    intro j
    rw [entryFold_parts_get pdata (m₁ :: r) _
      (fun m hm => (hall m hm).2.2.2.2.2.2.2) j]
    simp [jsGet_nil]
  have hidx_lt : ∀ j ∈ (m₁ :: r).map (fun m => m.part.getD 0), j < t := by
    intro j hj
    obtain ⟨m, hm, hjm⟩ := List.mem_map.mp hj
    have := (hall m hm).2.2.2.2.2.2.1
    omega
  have hmem_iff : ∀ p, p ∈ (m₁ :: r).map (fun m => m.part.getD 0) ↔
      ∃ m ∈ m₁ :: r, m.part = some p := by
    intro p
    rw [List.mem_map]
    constructor
    · rintro ⟨m, hm, hp⟩
      obtain ⟨_, _, _, _, _, hsome, _, _⟩ := hall m hm
      obtain ⟨q, hq⟩ := Option.isSome_iff_exists.mp hsome
      refine ⟨m, hm, ?_⟩
      rw [hq] at hp ⊢
      simp at hp
      rw [hp]
    · rintro ⟨m, hm, hp⟩
      exact ⟨m, hm, by rw [hp]; rfl⟩
  refine ⟨?_, ?_, ?_⟩
  · -- (a) recording
    intro st m hm p hp
    obtain ⟨htype, hdata, hfid, hchunk, _⟩ := hall m hm
    refine ⟨⟨jsSet ((accLookup (m.fileId, m.chunk) st.acc).getD
        ⟨[], jsOr1 m.partTotal⟩).parts (m.part.getD 0) m.dataB64,
      jsOr1 m.partTotal⟩, ?_, ?_⟩
    · unfold stepCollect
      rw [if_neg (by simp [htype]), if_neg (by simp [hdata])]
      rw [← hfid, ← hchunk]
      exact accLookup_accUpdate_self _ _ _
    · rw [hp]
      simp only [Option.getD_some]
      exact jsGet_jsSet_self _ _ _
  · -- (b) all parts present
    intro hcov
    have hparts : (entryFold ⟨[], jsOr1 m₁.partTotal⟩ (m₁ :: r)).parts =
        (List.range t).map (fun p => some (pdata p)) := by
      have hlen : (entryFold ⟨[], jsOr1 m₁.partTotal⟩ (m₁ :: r)).parts.length = t := by
        rw [entryFold_parts_length]
        simp only [List.length_nil, Nat.max_eq_right (Nat.zero_le _)]
        have hle : partsUB (m₁ :: r) ≤ t :=
          partsUB_le t _ (fun m hm => by
            have := (hall m hm).2.2.2.2.2.2.1
            omega)
        have hge : t ≤ partsUB (m₁ :: r) := by
          have hcv := hcov (t - 1) (by omega)
          have hmem := (hmem_iff (t - 1)).mpr hcv
          have hsome := hEget (t - 1)
          rw [if_pos hmem] at hsome
          have := jsGet_lt_of_some _ _ _ hsome
          rw [entryFold_parts_length] at this
          simp only [List.length_nil, Nat.max_eq_right (Nat.zero_le _)] at this
          omega
        omega
      refine list_ext_jsGet _ _ ?_ ?_
      · rw [hlen, List.length_map, List.length_range]
      · intro i
        rcases Nat.lt_or_ge i t with hi | hi
        · rw [hEget i, if_pos ((hmem_iff i).mpr (hcov i hi))]
          simp [jsGet, List.getD, List.getElem?_map, List.getElem?_range hi]
        · rw [jsGet_of_length_le _ _ (by omega), jsGet_of_length_le _ _ (by simp; omega)]
    simp only [collectInline]
    rw [hacc]
    simp only [List.isEmpty_cons, Bool.false_eq_true, if_false, entryChunks]
    have ht0 : (if (entryFold ⟨[], jsOr1 m₁.partTotal⟩ (m₁ :: r)).total = 0 then 1
        else (entryFold ⟨[], jsOr1 m₁.partTotal⟩ (m₁ :: r)).total) = t := by
      rw [hEtotal, if_neg (by omega : ¬ t = 0)]
    rw [ht0]
    have hmiss : firstMissingPart
        (entryFold ⟨[], jsOr1 m₁.partTotal⟩ (m₁ :: r)).parts t = none := by
      unfold firstMissingPart
      rw [List.find?_eq_none]
      intro p hp
      rw [hEget p, if_pos ((hmem_iff p).mpr (hcov p (List.mem_range.mp hp)))]
      simp
    rw [hmiss]
    have hjoined : (if (entryFold ⟨[], jsOr1 m₁.partTotal⟩ (m₁ :: r)).total > 1 then
        joinParts (entryFold ⟨[], jsOr1 m₁.partTotal⟩ (m₁ :: r)).parts
        else (jsGet (entryFold ⟨[], jsOr1 m₁.partTotal⟩ (m₁ :: r)).parts 0).getD "") =
        String.join ((List.range t).map pdata) := by
      rw [hEtotal]
      rcases Nat.lt_or_ge 1 t with h1 | h1
      · rw [if_pos h1]
        unfold joinParts
        rw [hparts, List.map_map]
        rfl
      · have ht1 : t = 1 := by omega
        subst ht1
        rw [if_neg (by omega)]
        rw [hEget 0, if_pos ((hmem_iff 0).mpr (hcov 0 (by omega)))]
        simp only [Option.getD_some]
        rw [show List.range 1 = [0] from rfl, List.map_cons, List.map_nil,
          string_join_singleton]
    rw [hjoined]
    rfl
  · -- (c) a part is missing
    intro p₀ hp₀ hmiss hfirst
    simp only [collectInline]
    rw [hacc]
    simp only [List.isEmpty_cons, Bool.false_eq_true, if_false, entryChunks]
    have ht0 : (if (entryFold ⟨[], jsOr1 m₁.partTotal⟩ (m₁ :: r)).total = 0 then 1
        else (entryFold ⟨[], jsOr1 m₁.partTotal⟩ (m₁ :: r)).total) = t := by
      rw [hEtotal, if_neg (by omega : ¬ t = 0)]
    rw [ht0]
    have hfound : firstMissingPart
        (entryFold ⟨[], jsOr1 m₁.partTotal⟩ (m₁ :: r)).parts t = some p₀ := by
      unfold firstMissingPart
      refine find?_range_first _ t p₀ hp₀ ?_ ?_
      · intro q hq
        rw [hEget q, if_pos ((hmem_iff q).mpr (hfirst q hq))]
        simp
      · have hnot : p₀ ∉ (m₁ :: r).map (fun m => m.part.getD 0) := by
          intro hmem
          obtain ⟨m, hm, hp⟩ := (hmem_iff p₀).mp hmem
          exact hmiss m hm hp
        rw [hEget p₀, if_neg hnot]
        simp
    rw [hfound, hEtotal]
    rfl

/-- Two-part split-chunk payloads for the C10 witness. -/
def pdataW : Nat → String := fun p => if p = 0 then b64Encode [1, 2, 3] else b64Encode [4, 5, 6]

def cxW1 : ChunkPayload :=
  { cxQ1 with
    fileId := "b1b1b1b1b1b1b1b1"
    name := "s"
    chunk := 3
    total := 1
    part := some 0
    partTotal := some 2
    dataB64 := pdataW 0 }

def cxW2 : ChunkPayload := { cxW1 with part := some 1, dataB64 := pdataW 1 }

/-- Witness for C10: the assembled chunk of a complete two-part entry, and the
fatal message when part 1 (index 0) is missing. -/
theorem split_chunks_decoding_witness :
    (([cxW1, cxW2] : List ChunkPayload) ≠ [] ∧
      (∀ m ∈ [cxW1, cxW2], partShaped "b1b1b1b1b1b1b1b1" 3 2 pdataW m) ∧
      (0 : Nat) < 2 ∧
      (∀ p < 2, ∃ m ∈ [cxW1, cxW2], m.part = some p) ∧
      (∀ m ∈ [cxW2], m.part ≠ some 0)) ∧
    (collectInline [cxW1, cxW2]).map (fun r => r.2) =
      .ok (jsSet [] 3 (b64Decode (String.join ((List.range 2).map pdataW)))) ∧
    collectInline [cxW2] =
      .error ("Missing QR part " ++ toString (0 + 1) ++ "/" ++ toString 2 ++
        " for " ++ "b1b1b1b1b1b1b1b1" ++ ":" ++ toString 3) :=
  ⟨⟨by decide, by decide, by decide, by decide, by decide⟩,
    (split_chunks_decoding "b1b1b1b1b1b1b1b1" 3 2 pdataW [cxW1, cxW2]
      (by decide) (by decide) (by decide)).2.1 (by decide),
    (split_chunks_decoding "b1b1b1b1b1b1b1b1" 3 2 pdataW [cxW2]
      (by decide) (by decide) (by decide)).2.2 0 (by decide) (by decide)
      (by omega)⟩

/-! ## Session machinery (claims C1, C4, C8)

A *session* is the payload set emitted by one `encodeSession`: all payloads
agree on the session-level fields, carry no `part`/`partTotal`, and their
`dataB64` is determined by their chunk index. -/

def sessionShaped (fid nm ex ch : String) (kdf : KdfParams) (sb nb : String)
    (tot : Nat) (pdata : Nat → String) (m : ChunkPayload) : Prop :=
  m.type = FRAGMENT_TYPE ∧ m.fileId = fid ∧ m.name = nm ∧ m.ext = ex ∧
    m.cipherHash = ch ∧ m.kdfParams = some kdf ∧ m.saltB64 = sb ∧
    m.nonceB64 = nb ∧ m.total = tot ∧ m.part = none ∧ m.partTotal = none ∧
    m.chunk < tot ∧ m.dataB64 = pdata m.chunk ∧ m.dataB64 ≠ ""

theorem b64Encode_ne_empty (bs : List Nat) (h : bs ≠ []) : b64Encode bs ≠ "" := by
  rcases bs with _ | ⟨a, _ | ⟨b, _ | ⟨c, rest⟩⟩⟩
  · exact absurd rfl h
  all_goals
    simp [b64Encode, b64EncodeList]
    intro hcon
    exact absurd (congrArg String.data hcon) (by simp)

theorem sliceChunk_ne_empty (frame : List Nat) (cs i : Nat) (hcs : 0 < cs)
    (hi : i < totalChunksOf frame.length cs) : sliceChunk frame cs i ≠ [] := by
  have hlen : 0 < frame.length := by
    by_contra hcon
    have h0 : frame.length = 0 := by omega
    rw [h0, totalChunksOf_zero cs hcs] at hi
    omega
  have hic : i * cs < frame.length := by
    have h1 := mul_pred_totalChunksOf_lt cs frame.length hcs hlen
    calc i * cs ≤ (totalChunksOf frame.length cs - 1) * cs :=
          Nat.mul_le_mul_right cs (by omega)
      _ = cs * (totalChunksOf frame.length cs - 1) := Nat.mul_comm _ _
      _ < frame.length := h1
  intro hcon
  have := congrArg List.length hcon
  simp only [sliceChunk, List.length_take, List.length_drop, List.length_nil] at this
  omega

theorem sliceChunk_mem (frame : List Nat) (cs i : Nat) :
    ∀ b ∈ sliceChunk frame cs i, b ∈ frame := by
  intro b hb
  exact List.mem_of_mem_drop (List.mem_of_mem_take hb)

theorem ne_empty_of_length_eq (s : String) (n : Nat) (hn : 0 < n)
    (h : s.length = n) : s ≠ "" := by
  intro hcon
  rw [hcon] at h
  simp [String.length] at h
  omega

theorem accLookup_mem (k : String × Nat) (e : Entry) :
    ∀ l : List ((String × Nat) × Entry), accLookup k l = some e → (k, e) ∈ l := by
  intro l
  induction l with
  | nil => intro h; exact absurd h (by simp [accLookup])
  | cons x t ih =>
    obtain ⟨k', e'⟩ := x
    intro h
    unfold accLookup at h
    by_cases hk : k' = k
    · subst hk
      rw [if_pos rfl] at h
      simp at h
      simp [h]
    · rw [if_neg hk] at h
      exact List.mem_cons_of_mem _ (ih h)

theorem mem_accUpdate (k : String × Nat) (e : Entry)
    (k' : String × Nat) (e' : Entry) :
    ∀ l : List ((String × Nat) × Entry), (k', e') ∈ accUpdate k e l →
      (k' = k ∧ e' = e) ∨ (k', e') ∈ l := by
  intro l
  induction l with
  | nil =>
    intro h
    simp [accUpdate] at h
    exact Or.inl ⟨h.1, h.2⟩
  | cons x t ih =>
    obtain ⟨k₀, e₀⟩ := x
    intro h
    unfold accUpdate at h
    by_cases hk : k₀ = k
    · subst hk
      rw [if_pos rfl] at h
      rcases List.mem_cons.mp h with h1 | h1
      · simp at h1
        exact Or.inl ⟨h1.1, h1.2⟩
      · exact Or.inr (List.mem_cons_of_mem _ h1)
    · rw [if_neg hk] at h
      rcases List.mem_cons.mp h with h1 | h1
      · exact Or.inr (List.mem_cons.mpr (Or.inl h1))
      · rcases ih h1 with h2 | h2
        · exact Or.inl h2
        · exact Or.inr (List.mem_cons_of_mem _ h2)

theorem keys_accUpdate (k : String × Nat) (e : Entry) (k' : String × Nat) :
    ∀ l : List ((String × Nat) × Entry),
      (k' ∈ (accUpdate k e l).map Prod.fst ↔ k' = k ∨ k' ∈ l.map Prod.fst) := by
  intro l
  induction l with
  | nil => simp [accUpdate]
  | cons x t ih =>
    obtain ⟨k₀, e₀⟩ := x
    unfold accUpdate
    by_cases hk : k₀ = k
    · subst hk
      rw [if_pos rfl]
      simp
    · rw [if_neg hk]
      simp only [List.map_cons, List.mem_cons, ih]
      tauto

/-- The per-payload acceptance test of the collect loop. -/
def acceptedP (m : ChunkPayload) : Prop :=
  m.type = FRAGMENT_TYPE ∧ m.dataB64 ≠ ""

theorem stepCollect_not_accepted (st : CollectState) (m : ChunkPayload)
    (h : ¬ acceptedP m) : stepCollect st m = st := by
  unfold stepCollect acceptedP at *
  by_cases h1 : m.type = FRAGMENT_TYPE
  · rw [if_neg (by simp [h1])]
    by_cases h2 : m.dataB64 = ""
    · rw [if_pos h2]
    · exact absurd ⟨h1, h2⟩ h
  · rw [if_pos (by simp [h1])]

theorem stepCollect_acc_accepted (st : CollectState) (m : ChunkPayload)
    (h1 : m.type = FRAGMENT_TYPE) (h2 : m.dataB64 ≠ "") :
    (stepCollect st m).acc = accUpdate (m.fileId, m.chunk)
      ⟨jsSet ((accLookup (m.fileId, m.chunk) st.acc).getD
        ⟨[], jsOr1 m.partTotal⟩).parts (m.part.getD 0) m.dataB64,
      jsOr1 m.partTotal⟩ st.acc := by
  unfold stepCollect
  rw [if_neg (by simp [h1]), if_neg (by simp [h2])]

theorem step_session_memo_init (fid nm ex ch : String) (kdf : KdfParams)
    (sb nb : String) (tot : Nat) (pdata : Nat → String) (m : ChunkPayload)
    (hm : sessionShaped fid nm ex ch kdf sb nb tot pdata m)
    (hsb : sb ≠ "") (hnb : nb ≠ "") :
    (stepCollect initCollect m).archiveName = some nm ∧
    (stepCollect initCollect m).archiveExt = (if ex = "" then none else some ex) ∧
    (stepCollect initCollect m).cipherSha256 = some ch ∧
    (stepCollect initCollect m).kdf = some kdf ∧
    (stepCollect initCollect m).salt = some (b64Decode sb) ∧
    (stepCollect initCollect m).nonce = some (b64Decode nb) ∧
    (stepCollect initCollect m).expectedTotal = some tot := by
  obtain ⟨h1, h2, h3, h4, h5, h6, h7, h8, h9, _, _, _, _, h14⟩ := hm
  unfold stepCollect
  rw [if_neg (by simp [h1]), if_neg (by simp [h14])]
  refine ⟨by simp [initCollect, jsTruthyS, h3], ?_,
    by simp [initCollect, jsTruthyS, h5], by simp [initCollect, h6],
    by simp [initCollect, h7, hsb], by simp [initCollect, h8, hnb],
    by simp [initCollect, jsTruthyN, h9]⟩
  by_cases hex : ex = ""
  · simp [initCollect, jsTruthyS, h4, hex]
  · simp [initCollect, jsTruthyS, h4, hex]

theorem step_session_memo_stable (fid nm ex ch : String) (kdf : KdfParams)
    (sb nb : String) (tot : Nat) (pdata : Nat → String) (m : ChunkPayload)
    (hm : sessionShaped fid nm ex ch kdf sb nb tot pdata m) (st : CollectState)
    (h : st.archiveName = some nm ∧
      st.archiveExt = (if ex = "" then none else some ex) ∧
      st.cipherSha256 = some ch ∧ st.kdf = some kdf ∧
      st.salt = some (b64Decode sb) ∧ st.nonce = some (b64Decode nb) ∧
      st.expectedTotal = some tot) :
    (stepCollect st m).archiveName = some nm ∧
    (stepCollect st m).archiveExt = (if ex = "" then none else some ex) ∧
    (stepCollect st m).cipherSha256 = some ch ∧
    (stepCollect st m).kdf = some kdf ∧
    (stepCollect st m).salt = some (b64Decode sb) ∧
    (stepCollect st m).nonce = some (b64Decode nb) ∧
    (stepCollect st m).expectedTotal = some tot := by
  obtain ⟨h1, h2, h3, h4, h5, h6, h7, h8, h9, _, _, _, _, h14⟩ := hm
  obtain ⟨s1, s2, s3, s4, s5, s6, s7⟩ := h
  unfold stepCollect
  rw [if_neg (by simp [h1]), if_neg (by simp [h14])]
  refine ⟨?_, ?_, ?_, by simp [s4], by simp [s5], by simp [s6], ?_⟩
  · by_cases hnm : nm = "" <;> simp [s1, jsTruthyS, hnm, h3]
  · by_cases hex : ex = ""
    · simp only [hex, if_pos rfl] at s2
      simp [s2, jsTruthyS, h4, hex]
    · simp only [hex, if_neg hex] at s2
      simp [s2, jsTruthyS, hex]
  · by_cases hch : ch = "" <;> simp [s3, jsTruthyS, hch, h5]
  · by_cases htot : tot = 0 <;> simp [s7, jsTruthyN, htot, h9]

theorem fold_session_memo (fid nm ex ch : String) (kdf : KdfParams)
    (sb nb : String) (tot : Nat) (pdata : Nat → String) :
    ∀ (ms : List ChunkPayload) (st : CollectState),
      (∀ m ∈ ms, sessionShaped fid nm ex ch kdf sb nb tot pdata m) →
      (st.archiveName = some nm ∧
        st.archiveExt = (if ex = "" then none else some ex) ∧
        st.cipherSha256 = some ch ∧ st.kdf = some kdf ∧
        st.salt = some (b64Decode sb) ∧ st.nonce = some (b64Decode nb) ∧
        st.expectedTotal = some tot) →
      ((ms.foldl stepCollect st).archiveName = some nm ∧
        (ms.foldl stepCollect st).archiveExt = (if ex = "" then none else some ex) ∧
        (ms.foldl stepCollect st).cipherSha256 = some ch ∧
        (ms.foldl stepCollect st).kdf = some kdf ∧
        (ms.foldl stepCollect st).salt = some (b64Decode sb) ∧
        (ms.foldl stepCollect st).nonce = some (b64Decode nb) ∧
        (ms.foldl stepCollect st).expectedTotal = some tot) := by
  intro ms
  induction ms with
  | nil => intro st _ h; exact h
  | cons m r ih =>
    intro st hall h
    exact ih (stepCollect st m) (fun x hx => hall x (by simp [hx]))
      (step_session_memo_stable fid nm ex ch kdf sb nb tot pdata m
        (hall m (by simp)) st h)

theorem collect_session_memo (fid nm ex ch : String) (kdf : KdfParams)
    (sb nb : String) (tot : Nat) (pdata : Nat → String)
    (ms : List ChunkPayload) (hne : ms ≠ [])
    (hall : ∀ m ∈ ms, sessionShaped fid nm ex ch kdf sb nb tot pdata m)
    (hsb : sb ≠ "") (hnb : nb ≠ "") :
    ((ms.foldl stepCollect initCollect).archiveName = some nm ∧
      (ms.foldl stepCollect initCollect).archiveExt =
        (if ex = "" then none else some ex) ∧
      (ms.foldl stepCollect initCollect).cipherSha256 = some ch ∧
      (ms.foldl stepCollect initCollect).kdf = some kdf ∧
      (ms.foldl stepCollect initCollect).salt = some (b64Decode sb) ∧
      (ms.foldl stepCollect initCollect).nonce = some (b64Decode nb) ∧
      (ms.foldl stepCollect initCollect).expectedTotal = some tot) := by
  cases ms with
  | nil => exact absurd rfl hne
  | cons m r =>
    rw [List.foldl_cons]
    exact fold_session_memo fid nm ex ch kdf sb nb tot pdata r
      (stepCollect initCollect m) (fun x hx => hall x (by simp [hx]))
      (step_session_memo_init fid nm ex ch kdf sb nb tot pdata m
        (hall m (by simp)) hsb hnb)

theorem collect_session_acc_sound (fid nm ex ch : String) (kdf : KdfParams)
    (sb nb : String) (tot : Nat) (pdata : Nat → String) :
    ∀ (ms : List ChunkPayload) (st : CollectState),
      (∀ m ∈ ms, sessionShaped fid nm ex ch kdf sb nb tot pdata m) →
      (∀ k e, (k, e) ∈ st.acc → k.1 = fid ∧ e = ⟨[some (pdata k.2)], 1⟩) →
      ∀ k e, (k, e) ∈ (ms.foldl stepCollect st).acc →
        k.1 = fid ∧ e = ⟨[some (pdata k.2)], 1⟩ := by
  intro ms
  induction ms with
  | nil => intro st _ hst; exact hst
  | cons m r ih =>
    intro st hall hst
    obtain ⟨h1, h2, _, _, _, _, _, _, _, h10, h11, _, h13, h14⟩ := hall m (by simp)
    refine ih (stepCollect st m) (fun x hx => hall x (by simp [hx])) ?_
    intro k e hke
    rw [stepCollect_acc_accepted st m h1 h14] at hke
    rcases mem_accUpdate _ _ _ _ _ hke with ⟨hk, he⟩ | hold
    · subst hk he
      refine ⟨h2, ?_⟩
      simp only [h10, h11, Option.getD_none, jsOr1]
      rcases hacc : accLookup (m.fileId, m.chunk) st.acc with _ | e₀
      · simp [jsSet, h13]
      · have := (hst _ _ (accLookup_mem _ _ _ hacc)).2
        rw [this]
        simp [jsSet, h13]
    · exact hst k e hold

theorem collect_session_keys :
    ∀ (ms : List ChunkPayload) (st : CollectState),
      (∀ m ∈ ms, acceptedP m) →
      ∀ k, k ∈ ((ms.foldl stepCollect st).acc.map Prod.fst) ↔
        (k ∈ st.acc.map Prod.fst ∨ ∃ m ∈ ms, k = (m.fileId, m.chunk)) := by
  intro ms
  induction ms with
  | nil => intro st _ k; simp
  | cons m r ih =>
    intro st hall k
    obtain ⟨h1, h2⟩ := hall m (by simp)
    rw [List.foldl_cons, ih (stepCollect st m) (fun x hx => hall x (by simp [hx])) k,
      stepCollect_acc_accepted st m h1 h2, keys_accUpdate]
    constructor
    · rintro ((h | h) | ⟨x, hx, hk⟩)
      · exact Or.inr ⟨m, by simp, h⟩
      · exact Or.inl h
      · exact Or.inr ⟨x, by simp [hx], hk⟩
    · rintro (h | ⟨x, hx, hk⟩)
      · exact Or.inl (Or.inr h)
      · rcases List.mem_cons.mp hx with rfl | hx'
        · exact Or.inl (Or.inl hk)
        · exact Or.inr ⟨x, hx', hk⟩

theorem entryChunks_canonical (s : Nat → String) :
    ∀ (A : List ((String × Nat) × Entry)) (ch : List (Option (List Nat))),
      (∀ k e, (k, e) ∈ A → e = ⟨[some (s k.2)], 1⟩) →
      entryChunks A ch = .ok ((A.map (fun x => x.1.2)).foldl
        (fun ch i => jsSet ch i (b64Decode (s i))) ch) := by
  intro A
  induction A with
  | nil => intro ch _; rfl
  | cons x rest ih =>
    obtain ⟨k, e⟩ := x
    intro ch hA
    have he : e = ⟨[some (s k.2)], 1⟩ := hA k e (by simp)
    subst he
    show entryChunks ((k, ⟨[some (s k.2)], 1⟩) :: rest) ch = _
    unfold entryChunks
    have hmiss : firstMissingPart [some (s k.2)] 1 = none := by
      unfold firstMissingPart
      rw [List.find?_eq_none]
      intro p hp
      have : p = 0 := by simpa using List.mem_range.mp hp
      subst this
      simp [jsGet]
    simp only [if_neg (by omega : ¬ (1 : Nat) = 0), hmiss]
    have hjs : (if (1 : Nat) > 1 then joinParts [some (s k.2)]
        else (jsGet [some (s k.2)] 0).getD "") = s k.2 := by
      rw [if_neg (by omega : ¬ (1 : Nat) > 1)]
      simp [jsGet]
    rw [hjs, ih (jsSet ch k.2 (b64Decode (s k.2)))
      (fun k' e' h => hA k' e' (by simp [h]))]
    simp

def idxUB : List Nat → Nat
  | [] => 0
  | i :: r => max (i + 1) (idxUB r)

theorem foldWrite_get (v : Nat → List Nat) :
    ∀ (ks : List Nat) (ch : List (Option (List Nat))) (j : Nat),
      jsGet (ks.foldl (fun ch i => jsSet ch i (v i)) ch) j =
        if j ∈ ks then some (v j) else jsGet ch j := by
  intro ks
  induction ks with
  | nil => intro ch j; simp
  | cons i r ih =>
    intro ch j
    rw [List.foldl_cons, ih (jsSet ch i (v i)) j]
    by_cases hr : j ∈ r
    · simp [hr]
    · by_cases hj : j = i
      · subst hj
        simp [hr, jsGet_jsSet_self]
      · rw [jsGet_jsSet_ne _ _ _ _ (fun hcon => hj hcon.symm)]
        simp [hr, hj]

theorem foldWrite_length (v : Nat → List Nat) :
    ∀ (ks : List Nat) (ch : List (Option (List Nat))),
      (ks.foldl (fun ch i => jsSet ch i (v i)) ch).length =
        max ch.length (idxUB ks) := by
  intro ks
  induction ks with
  | nil => intro ch; simp [idxUB]
  | cons i r ih =>
    intro ch
    rw [List.foldl_cons, ih (jsSet ch i (v i))]
    simp only [jsSet_length, idxUB]
    omega

theorem idxUB_le (t : Nat) (ks : List Nat) (h : ∀ i ∈ ks, i + 1 ≤ t) :
    idxUB ks ≤ t := by
  induction ks with
  | nil => simp [idxUB]
  | cons i r ih =>
    simp only [idxUB]
    have := h i (by simp)
    have := ih (fun x hx => h x (by simp [hx]))
    omega

theorem le_idxUB_of_mem (i : Nat) (ks : List Nat) (h : i ∈ ks) :
    i + 1 ≤ idxUB ks := by
  induction ks with
  | nil => simp at h
  | cons a r ih =>
    simp only [idxUB]
    rcases List.mem_cons.mp h with rfl | h'
    · omega
    · have := ih h'
      omega

theorem encodePayloads_shape (meta : ChunkPayload) (frame : List Nat) (cs : Nat)
    (kdf : KdfParams) (hcs : 0 < cs)
    (htype : meta.type = FRAGMENT_TYPE) (hkdf : meta.kdfParams = some kdf)
    (hpart : meta.part = none) (hptot : meta.partTotal = none) :
    ∀ m ∈ encodePayloads meta frame cs,
      sessionShaped meta.fileId meta.name meta.ext meta.cipherHash
        kdf meta.saltB64 meta.nonceB64
        (totalChunksOf frame.length cs)
        (fun j => b64Encode (sliceChunk frame cs j)) m := by
  intro m hm
  simp only [encodePayloads, List.mem_map, List.mem_range] at hm
  obtain ⟨i, hi, rfl⟩ := hm
  refine ⟨htype, rfl, rfl, rfl, rfl, hkdf, rfl, rfl, rfl, hpart,
    hptot, hi, rfl, ?_⟩
  exact b64Encode_ne_empty _ (sliceChunk_ne_empty frame cs i hcs hi)

/-- The heart of claims C1, C4 and C8: for any list `ms` with the same element
set as the payloads of one encode session, the whole decode pipeline reduces
to the AEAD decryption of the reassembled session ciphertext with the supplied
password — succeeding with the decrypted bytes (written as `<name><ext>`) or
failing with the uniform wrong-password-or-corrupted-data message. -/
theorem session_pipeline_eq
    (deriveKey : String → List Nat → KdfParams → List Nat)
    (aeadDecrypt : List Nat → List Nat → List Nat → List Nat → Option (List Nat))
    (pass' : String) (salt nonce : List Nat) (kdf : KdfParams)
    (nameBase metaExt : String) (ct tag : List Nat) (cs : Nat)
    (hcs : 0 < cs) (htag : tag.length = 16)
    (hframe256 : ∀ b ∈ ct ++ tag, b < 256)
    (hsalt256 : ∀ b ∈ salt, b < 256) (hsaltne : salt ≠ [])
    (hnonce256 : ∀ b ∈ nonce, b < 256) (hnoncene : nonce ≠ [])
    (ms : List ChunkPayload)
    (hsub : ∀ m ∈ ms, m ∈ encodePayloads
      { baseMeta nameBase metaExt (sha256Hex (ct ++ tag)) kdf
          (b64Encode salt) (b64Encode nonce) with chunkSize := cs }
      (ct ++ tag) cs)
    (hcov : ∀ p ∈ encodePayloads
      { baseMeta nameBase metaExt (sha256Hex (ct ++ tag)) kdf
          (b64Encode salt) (b64Encode nonce) with chunkSize := cs }
      (ct ++ tag) cs, p ∈ ms) :
    decodePipeline deriveKey aeadDecrypt ms pass' =
      (match aeadDecrypt (deriveKey pass' salt kdf) nonce ct tag with
        | some d => .ok (writeOutputName (some nameBase)
            (if metaExt = "" then none else some metaExt) d, d)
        | none => .error "Decryption failed. Wrong password or corrupted data.") := by
  set meta := ({ baseMeta nameBase metaExt (sha256Hex (ct ++ tag)) kdf
      (b64Encode salt) (b64Encode nonce) with chunkSize := cs } : ChunkPayload)
    with hmeta_def
  have hname : meta.name = nameBase := rfl
  have hext : meta.ext = metaExt := rfl
  have hch : meta.cipherHash = sha256Hex (ct ++ tag) := rfl
  have hsb : meta.saltB64 = b64Encode salt := rfl
  have hnb : meta.nonceB64 = b64Encode nonce := rfl
  have hframelen : (ct ++ tag).length = ct.length + 16 := by
    simp [htag]
  have hframepos : 0 < (ct ++ tag).length := by omega
  have hTpos : 0 < totalChunksOf (ct ++ tag).length cs :=
    totalChunksOf_pos cs _ hcs hframepos
  have hshape := encodePayloads_shape meta (ct ++ tag) cs kdf hcs rfl rfl rfl rfl
  have hshape_ms : ∀ m ∈ ms,
      sessionShaped meta.fileId meta.name meta.ext meta.cipherHash kdf
        meta.saltB64 meta.nonceB64 (totalChunksOf (ct ++ tag).length cs)
        (fun j => b64Encode (sliceChunk (ct ++ tag) cs j)) m :=
    fun m hm => hshape m (hsub m hm)
  have hms_ne : ms ≠ [] := by
    have h0 : mkPayload meta (totalChunksOf (ct ++ tag).length cs) 0
        (sliceChunk (ct ++ tag) cs 0) ∈ ms := by
      refine hcov _ ?_
      simp only [encodePayloads, List.mem_map, List.mem_range]
      exact ⟨0, hTpos, rfl⟩
    intro hcon
    rw [hcon] at h0
    exact absurd h0 (List.not_mem_nil _)
  obtain ⟨hm1, hm2, hm3, hm4, hm5, hm6, hm7⟩ :=
    collect_session_memo meta.fileId meta.name meta.ext meta.cipherHash kdf
      meta.saltB64 meta.nonceB64 (totalChunksOf (ct ++ tag).length cs)
      (fun j => b64Encode (sliceChunk (ct ++ tag) cs j)) ms hms_ne hshape_ms
      (by rw [hsb]; exact b64Encode_ne_empty salt hsaltne)
      (by rw [hnb]; exact b64Encode_ne_empty nonce hnoncene)
  rw [hname] at hm1
  rw [hext] at hm2
  rw [hch] at hm3
  rw [hsb, b64_roundtrip salt hsalt256] at hm5
  rw [hnb, b64_roundtrip nonce hnonce256] at hm6
  have haccept : ∀ m ∈ ms, acceptedP m := by
    intro m hm
    obtain ⟨h1, _, _, _, _, _, _, _, _, _, _, _, _, h14⟩ := hshape_ms m hm
    exact ⟨h1, h14⟩
  have hsound := collect_session_acc_sound meta.fileId meta.name meta.ext
    meta.cipherHash kdf meta.saltB64 meta.nonceB64
    (totalChunksOf (ct ++ tag).length cs)
    (fun j => b64Encode (sliceChunk (ct ++ tag) cs j)) ms initCollect
    hshape_ms (by simp [initCollect])
  have hkeys := collect_session_keys ms initCollect haccept
  have hks : ∀ j, j ∈ ((ms.foldl stepCollect initCollect).acc.map
      (fun x => x.1.2)) ↔ j < totalChunksOf (ct ++ tag).length cs := by
    intro j
    constructor
    · intro hj
      obtain ⟨x, hx, hxe⟩ := List.mem_map.mp hj
      have hxk : x.1 ∈ ((ms.foldl stepCollect initCollect).acc.map Prod.fst) :=
        List.mem_map.mpr ⟨x, hx, rfl⟩
      rcases (hkeys x.1).mp hxk with h | ⟨m, hm, hk⟩
      · simp [initCollect] at h
      · obtain ⟨_, _, _, _, _, _, _, _, _, _, _, h12, _, _⟩ := hshape_ms m hm
        rw [← hxe, hk]
        exact h12
    · intro hj
      have hp : mkPayload meta (totalChunksOf (ct ++ tag).length cs) j
          (sliceChunk (ct ++ tag) cs j) ∈ ms := by
        refine hcov _ ?_
        simp only [encodePayloads, List.mem_map, List.mem_range]
        exact ⟨j, hj, rfl⟩
      have hkmem := (hkeys _).mpr (Or.inr ⟨_, hp, rfl⟩)
      obtain ⟨x, hx, hxe⟩ := List.mem_map.mp hkmem
      refine List.mem_map.mpr ⟨x, hx, ?_⟩
      rw [hxe]
      rfl
  have hec := entryChunks_canonical
    (fun j => b64Encode (sliceChunk (ct ++ tag) cs j))
    (ms.foldl stepCollect initCollect).acc []
    (fun k e h => (hsound k e h).2)
  have hclen : ((((ms.foldl stepCollect initCollect).acc.map
      (fun x => x.1.2))).foldl
      (fun ch i => jsSet ch i (b64Decode (b64Encode (sliceChunk (ct ++ tag) cs i))))
      []).length = totalChunksOf (ct ++ tag).length cs := by
    rw [foldWrite_length]
    simp only [List.length_nil, Nat.max_eq_right (Nat.zero_le _)]
    have hle := idxUB_le (totalChunksOf (ct ++ tag).length cs) _
      (fun i hi => by have := (hks i).mp hi; omega)
    have hge := le_idxUB_of_mem (totalChunksOf (ct ++ tag).length cs - 1) _
      ((hks _).mpr (by omega))
    omega
  have hchunksL : ((((ms.foldl stepCollect initCollect).acc.map
      (fun x => x.1.2))).foldl
      (fun ch i => jsSet ch i (b64Decode (b64Encode (sliceChunk (ct ++ tag) cs i))))
      []) = (List.range (totalChunksOf (ct ++ tag).length cs)).map
        (fun j => some (sliceChunk (ct ++ tag) cs j)) := by
    refine list_ext_jsGet _ _ ?_ ?_
    · rw [hclen, List.length_map, List.length_range]
    · intro j
      rw [foldWrite_get]
      by_cases hj : j < totalChunksOf (ct ++ tag).length cs
      · rw [if_pos ((hks j).mpr hj)]
        rw [b64_roundtrip _ (fun b hb => hframe256 b (sliceChunk_mem _ _ _ b hb))]
        simp only [jsGet, List.getD, List.getElem?_map, List.getElem?_range hj,
          List.get?_eq_getElem?]
        rfl
      · rw [if_neg (fun hmem => hj ((hks j).mp hmem)), jsGet_nil,
          jsGet_of_length_le _ _
            (by rw [List.length_map, List.length_range]; omega)]
  have hacc_ne : (ms.foldl stepCollect initCollect).acc ≠ [] := by
    intro hcon
    have := (hks 0).mpr hTpos
    rw [hcon] at this
    simp at this
  have hcoll : collectInline ms = .ok (ms.foldl stepCollect initCollect,
      (List.range (totalChunksOf (ct ++ tag).length cs)).map
        (fun j => some (sliceChunk (ct ++ tag) cs j))) := by
    simp only [collectInline]
    rw [if_neg (by simp [List.isEmpty_iff, hacc_ne])]
    rw [hec, hchunksL]
    rfl
  have hassemble : verifyAssemble
      ((List.range (totalChunksOf (ct ++ tag).length cs)).map
        (fun j => some (sliceChunk (ct ++ tag) cs j)))
      (ms.foldl stepCollect initCollect).expectedTotal
      (ms.foldl stepCollect initCollect).cipherSha256 = .ok (ct ++ tag) := by
    rw [hm7, hm3]
    simp only [verifyAssemble]
    have hfm : ((List.range (totalChunksOf (ct ++ tag).length cs)).map
        (fun j => some (sliceChunk (ct ++ tag) cs j))).filterMap id =
        encChunks (ct ++ tag) cs := by
      rw [show (List.range (totalChunksOf (ct ++ tag).length cs)).map
          (fun j => some (sliceChunk (ct ++ tag) cs j)) =
          (encChunks (ct ++ tag) cs).map some by
        simp [encChunks, List.map_map]]
      simp [List.filterMap_map]
    rw [hfm]
    have hpresent : (encChunks (ct ++ tag) cs).length =
        totalChunksOf (ct ++ tag).length cs := by
      simp [encChunks]
    rw [if_neg (by simp [hpresent, jsTruthyN])]
    rw [if_neg (by simp [encChunks])]
    rw [encChunks_flatten _ _ hcs]
    rw [if_neg (by simp)]
  have hdecrypt : decryptStep deriveKey aeadDecrypt
      (ms.foldl stepCollect initCollect) (ct ++ tag) pass' =
      (match aeadDecrypt (deriveKey pass' salt kdf) nonce ct tag with
        | some d => .ok d
        | none => .error "Decryption failed. Wrong password or corrupted data.") := by
    simp only [decryptStep]
    rw [if_neg (by simp [hm4, hm5, hm6])]
    rw [hm4, hm5, hm6]
    have hdrop : (ct ++ tag).drop ((ct ++ tag).length - 16) = tag := by
      rw [hframelen, Nat.add_sub_cancel]
      exact List.drop_left ct tag
    have htake : (ct ++ tag).take ((ct ++ tag).length - 16) = ct := by
      rw [hframelen, Nat.add_sub_cancel]
      exact List.take_left ct tag
    rw [hdrop, htake]
    rfl
  unfold decodePipeline
  rw [hcoll]
  dsimp only
  rw [hassemble]
  dsimp only
  rw [hdecrypt]
  cases aeadDecrypt (deriveKey pass' salt kdf) nonce ct tag with
  | none => rfl
  | some d =>
      dsimp only
      rw [hm1, hm2]

set_option maxRecDepth 40000 in
/-- Witness for C2 (amended): concrete payload and fragment. -/
theorem chunk_hash_handling_witness :
    (sha256Hex (b64Decode cxFragC2.data) ≠ cxFragC2.hash ∧
      cxFragC2.type = FRAGMENT_TYPE) ∧
    stepCollect initCollect { cxPayloadC2 with hash := "junk" } =
      stepCollect initCollect cxPayloadC2 ∧
    legacyStep [] cxFragC2 = .error ("Chunk hash mismatch: " ++ cxFragC2.file) :=
  ⟨⟨by decide, by decide⟩,
    (chunk_hash_handling initCollect cxPayloadC2 "junk" [] cxFragC2
      (by decide) (by decide)).1,
    (chunk_hash_handling initCollect cxPayloadC2 "junk" [] cxFragC2
      (by decide) (by decide)).2⟩

/-! ## C1, C4, C8: whole-session properties

These instantiate `session_pipeline_eq` with the payload list actually
produced by `encodeSession`.  `encodeSession_ok_elim` unpacks a successful
encode run: the chunk size is positive (`idealChunk` is clamped to ≥ 512
and a configured `CHUNK_SIZE` override is assumed positive, as `parseInt`
of a sensible setting) and the payload list is exactly `encodePayloads`
over the ciphertext‖tag frame with the session metadata. -/

lemma encodeSession_ok_elim
    (deriveKey : String → List Nat → KdfParams → List Nat)
    (aeadEncrypt : List Nat → List Nat → List Nat → List Nat × List Nat)
    (pass : String) (salt nonce : List Nat) (kdf : KdfParams)
    (nameBase metaExt ecl : String) (envChunkSize : Option Nat)
    (data : List Nat) (payloads : List ChunkPayload) (total cs : Nat)
    (henv : ∀ n, envChunkSize = some n → 0 < n)
    (henc : encodeSession deriveKey aeadEncrypt pass salt nonce kdf nameBase
      metaExt ecl envChunkSize data = .ok (payloads, total, cs)) :
    0 < cs ∧ payloads = encodePayloads
      { baseMeta nameBase metaExt
          (sha256Hex ((aeadEncrypt (deriveKey pass salt kdf) nonce data).1 ++
            (aeadEncrypt (deriveKey pass salt kdf) nonce data).2)) kdf
          (b64Encode salt) (b64Encode nonce) with chunkSize := cs }
      ((aeadEncrypt (deriveKey pass salt kdf) nonce data).1 ++
        (aeadEncrypt (deriveKey pass salt kdf) nonce data).2) cs := by
  simp only [encodeSession] at henc
  cases hcal : calibrate ecl (baseMeta nameBase metaExt
      (sha256Hex ((aeadEncrypt (deriveKey pass salt kdf) nonce data).1 ++
        (aeadEncrypt (deriveKey pass salt kdf) nonce data).2)) kdf
      (b64Encode salt) (b64Encode nonce)) with
  | error e =>
      rw [hcal] at henc
      cases henc
  | ok maxB =>
      rw [hcal] at henc
      simp only [Except.ok.injEq, Prod.mk.injEq] at henc
      obtain ⟨hp, -, hc⟩ := henc
      constructor
      · rw [← hc]
        cases henvc : envChunkSize with
        | none =>
            simp only [chunkSizeOf, Option.getD_none, idealChunk]
            omega
        | some n =>
            simp only [chunkSizeOf, Option.getD_some]
            exact henv n henvc
      · rw [← hp, hc]

/-- C1: round-trip.  For every passphrase of at least 8 characters and every
payload set a successful `encodeSession` run produces, decoding that set with
the same passphrase restores the encoded content `data` byte-for-byte (and
writes it under the session's name/ext).  The crypto parameters carry their
Node contracts as hypotheses: scrypt/AES-GCM over the same key/nonce round-trip
(`hdec`), the GCM tag is 16 bytes (`htag`), ciphertext/salt/nonce are byte
strings (`hframe256`, `hsalt256`, `hnonce256`), and salt/nonce are the
nonempty random buffers of lines 151–152. -/
theorem encode_decode_roundtrip
    (deriveKey : String → List Nat → KdfParams → List Nat)
    (aeadEncrypt : List Nat → List Nat → List Nat → List Nat × List Nat)
    (aeadDecrypt : List Nat → List Nat → List Nat → List Nat → Option (List Nat))
    (pass : String) (salt nonce : List Nat) (kdf : KdfParams)
    (nameBase metaExt ecl : String) (envChunkSize : Option Nat)
    (data : List Nat) (payloads : List ChunkPayload) (total cs : Nat)
    (hpw : 8 ≤ pass.length)
    (henv : ∀ n, envChunkSize = some n → 0 < n)
    (henc : encodeSession deriveKey aeadEncrypt pass salt nonce kdf nameBase
      metaExt ecl envChunkSize data = .ok (payloads, total, cs))
    (htag : (aeadEncrypt (deriveKey pass salt kdf) nonce data).2.length = 16)
    (hframe256 : ∀ b ∈ (aeadEncrypt (deriveKey pass salt kdf) nonce data).1 ++
      (aeadEncrypt (deriveKey pass salt kdf) nonce data).2, b < 256)
    (hsalt256 : ∀ b ∈ salt, b < 256) (hsaltne : salt ≠ [])
    (hnonce256 : ∀ b ∈ nonce, b < 256) (hnoncene : nonce ≠ [])
    (hdec : aeadDecrypt (deriveKey pass salt kdf) nonce
      (aeadEncrypt (deriveKey pass salt kdf) nonce data).1
      (aeadEncrypt (deriveKey pass salt kdf) nonce data).2 = some data) :
    decodePipeline deriveKey aeadDecrypt payloads pass =
      .ok (writeOutputName (some nameBase)
        (if metaExt = "" then none else some metaExt) data, data) := by
  obtain ⟨hcs, hpl⟩ := encodeSession_ok_elim deriveKey aeadEncrypt pass salt
    nonce kdf nameBase metaExt ecl envChunkSize data payloads total cs henv henc
  subst hpl
  have h := session_pipeline_eq deriveKey aeadDecrypt pass salt nonce kdf
    nameBase metaExt _ _ cs hcs htag hframe256 hsalt256 hsaltne hnonce256
    hnoncene _ (fun m hm => hm) (fun p hp => hp)
  rw [hdec] at h
  exact h

/-- Concrete stand-ins for the crypto primitives, used by the closed examples
below: `wDerive` distinguishes the correct passphrase, `wEncrypt` returns its
input as the "ciphertext" with an all-zero 16-byte tag, and `wDecrypt`
succeeds exactly for the correct key and tag. -/
def wKdf : KdfParams := ⟨16384, 8, 1⟩

def wDerive : String → List Nat → KdfParams → List Nat :=
  fun p _ _ => if p = "pw123456" then [7] else [8]

def wEncrypt : List Nat → List Nat → List Nat → List Nat × List Nat :=
  fun _ _ d => (d, List.replicate 16 0)

def wDecrypt : List Nat → List Nat → List Nat → List Nat → Option (List Nat) :=
  fun k _ c t => if k = [7] ∧ t = List.replicate 16 0 then some c else none

set_option maxRecDepth 80000 in
/-- Witness for C1: a concrete session (passphrase `pw123456`, three data
bytes) whose encoded payloads decode back to the data. -/
theorem encode_decode_roundtrip_witness :
    ∃ pl t c,
      encodeSession wDerive wEncrypt "pw123456" [1] [2] wKdf "doc" ".txt" "Q"
        none [10, 20, 30] = .ok (pl, t, c) ∧
      decodePipeline wDerive wDecrypt pl "pw123456" =
        .ok (writeOutputName (some "doc")
          (if (".txt" : String) = "" then none else some ".txt") [10, 20, 30],
          [10, 20, 30]) := by
  obtain ⟨pl, t, c, hpl⟩ : ∃ pl t c,
      encodeSession wDerive wEncrypt "pw123456" [1] [2] wKdf "doc" ".txt" "Q"
        none [10, 20, 30] = .ok (pl, t, c) := ⟨_, _, _, rfl⟩
  exact ⟨pl, t, c, hpl,
    encode_decode_roundtrip wDerive wEncrypt wDecrypt "pw123456" [1] [2] wKdf
      "doc" ".txt" "Q" none [10, 20, 30] pl t c (by decide)
      (fun n h => nomatch h) hpl (by decide) (by decide) (by decide)
      (by decide) (by decide) (by decide) (by decide)⟩

/-- C4: wrong password.  Decoding any encoded payload set with a passphrase
whose derived key differs from the encode key fails at the decryption step
with the one uniform message (the same `.error` whatever the cause of the tag
mismatch, wrong password or corrupted data), and — `.error` rather than
`.ok` — no output file is written.  `hauth` is GCM authentication: decryption
under any other key fails tag verification; `hkey` says the two scrypt keys
differ (scrypt is injective in the passphrase for fixed salt apart from
negligible collisions, which a model of it as a function parameter cannot
exclude). -/
theorem wrong_password_uniform_failure
    (deriveKey : String → List Nat → KdfParams → List Nat)
    (aeadEncrypt : List Nat → List Nat → List Nat → List Nat × List Nat)
    (aeadDecrypt : List Nat → List Nat → List Nat → List Nat → Option (List Nat))
    (pass wrongPass : String) (salt nonce : List Nat) (kdf : KdfParams)
    (nameBase metaExt ecl : String) (envChunkSize : Option Nat)
    (data : List Nat) (payloads : List ChunkPayload) (total cs : Nat)
    (henv : ∀ n, envChunkSize = some n → 0 < n)
    (henc : encodeSession deriveKey aeadEncrypt pass salt nonce kdf nameBase
      metaExt ecl envChunkSize data = .ok (payloads, total, cs))
    (htag : (aeadEncrypt (deriveKey pass salt kdf) nonce data).2.length = 16)
    (hframe256 : ∀ b ∈ (aeadEncrypt (deriveKey pass salt kdf) nonce data).1 ++
      (aeadEncrypt (deriveKey pass salt kdf) nonce data).2, b < 256)
    (hsalt256 : ∀ b ∈ salt, b < 256) (hsaltne : salt ≠ [])
    (hnonce256 : ∀ b ∈ nonce, b < 256) (hnoncene : nonce ≠ [])
    (hkey : deriveKey wrongPass salt kdf ≠ deriveKey pass salt kdf)
    (hauth : ∀ k, k ≠ deriveKey pass salt kdf →
      aeadDecrypt k nonce (aeadEncrypt (deriveKey pass salt kdf) nonce data).1
        (aeadEncrypt (deriveKey pass salt kdf) nonce data).2 = none) :
    decodePipeline deriveKey aeadDecrypt payloads wrongPass =
      .error "Decryption failed. Wrong password or corrupted data." := by
  obtain ⟨hcs, hpl⟩ := encodeSession_ok_elim deriveKey aeadEncrypt pass salt
    nonce kdf nameBase metaExt ecl envChunkSize data payloads total cs henv henc
  subst hpl
  have h := session_pipeline_eq deriveKey aeadDecrypt wrongPass salt nonce kdf
    nameBase metaExt _ _ cs hcs htag hframe256 hsalt256 hsaltne hnonce256
    hnoncene _ (fun m hm => hm) (fun p hp => hp)
  rw [hauth _ hkey] at h
  exact h

set_option maxRecDepth 80000 in
/-- Witness for C4: the concrete session of the round-trip example, decoded
with the passphrase `guessed!` instead of `pw123456`, fails with the uniform
message. -/
theorem wrong_password_uniform_failure_witness :
    ∃ pl t c,
      encodeSession wDerive wEncrypt "pw123456" [1] [2] wKdf "doc" ".txt" "Q"
        none [10, 20, 30] = .ok (pl, t, c) ∧
      decodePipeline wDerive wDecrypt pl "guessed!" =
        .error "Decryption failed. Wrong password or corrupted data." := by
  obtain ⟨pl, t, c, hpl⟩ : ∃ pl t c,
      encodeSession wDerive wEncrypt "pw123456" [1] [2] wKdf "doc" ".txt" "Q"
        none [10, 20, 30] = .ok (pl, t, c) := ⟨_, _, _, rfl⟩
  exact ⟨pl, t, c, hpl,
    wrong_password_uniform_failure wDerive wEncrypt wDecrypt "pw123456"
      "guessed!" [1] [2] wKdf "doc" ".txt" "Q" none [10, 20, 30] pl t c
      (fun n h => nomatch h) hpl (by decide) (by decide) (by decide)
      (by decide) (by decide) (by decide) (by decide)
      (fun k hk => if_neg (fun hcon => hk (hcon.1.trans rfl)))⟩

/-- C8: the decoder's result depends only on which payloads occur among the
input symbols, not on their enumeration order or multiplicity: any list `ms`
with the same members as an encode session's payload list (every permutation,
renaming-induced reorder, or duplication of symbols yields such a list)
decodes identically — chunk placement comes from each payload's `chunk` (and
`fileId`) field, never from enumeration order. -/
theorem decode_enumeration_invariance
    (deriveKey : String → List Nat → KdfParams → List Nat)
    (aeadEncrypt : List Nat → List Nat → List Nat → List Nat × List Nat)
    (aeadDecrypt : List Nat → List Nat → List Nat → List Nat → Option (List Nat))
    (pass : String) (salt nonce : List Nat) (kdf : KdfParams)
    (nameBase metaExt ecl : String) (envChunkSize : Option Nat)
    (data : List Nat) (payloads : List ChunkPayload) (total cs : Nat)
    (henv : ∀ n, envChunkSize = some n → 0 < n)
    (henc : encodeSession deriveKey aeadEncrypt pass salt nonce kdf nameBase
      metaExt ecl envChunkSize data = .ok (payloads, total, cs))
    (htag : (aeadEncrypt (deriveKey pass salt kdf) nonce data).2.length = 16)
    (hframe256 : ∀ b ∈ (aeadEncrypt (deriveKey pass salt kdf) nonce data).1 ++
      (aeadEncrypt (deriveKey pass salt kdf) nonce data).2, b < 256)
    (hsalt256 : ∀ b ∈ salt, b < 256) (hsaltne : salt ≠ [])
    (hnonce256 : ∀ b ∈ nonce, b < 256) (hnoncene : nonce ≠ [])
    (pass' : String) (ms : List ChunkPayload)
    (hmem : ∀ m, m ∈ ms ↔ m ∈ payloads) :
    decodePipeline deriveKey aeadDecrypt ms pass' =
      decodePipeline deriveKey aeadDecrypt payloads pass' := by
  obtain ⟨hcs, hpl⟩ := encodeSession_ok_elim deriveKey aeadEncrypt pass salt
    nonce kdf nameBase metaExt ecl envChunkSize data payloads total cs henv henc
  subst hpl
  rw [session_pipeline_eq deriveKey aeadDecrypt pass' salt nonce kdf nameBase
      metaExt _ _ cs hcs htag hframe256 hsalt256 hsaltne hnonce256 hnoncene ms
      (fun m hm => (hmem m).mp hm) (fun p hp => (hmem p).mpr hp),
    session_pipeline_eq deriveKey aeadDecrypt pass' salt nonce kdf nameBase
      metaExt _ _ cs hcs htag hframe256 hsalt256 hsaltne hnonce256 hnoncene _
      (fun m hm => hm) (fun p hp => hp)]

set_option maxRecDepth 80000 in
/-- Witness for C8: the concrete session's payload list, reversed and then
concatenated with itself (an out-of-order enumeration with every symbol
duplicated), decodes to the same result as the original list. -/
theorem decode_enumeration_invariance_witness :
    ∃ pl t c,
      encodeSession wDerive wEncrypt "pw123456" [1] [2] wKdf "doc" ".txt" "Q"
        none [10, 20, 30] = .ok (pl, t, c) ∧
      decodePipeline wDerive wDecrypt (pl.reverse ++ pl) "pw123456" =
        decodePipeline wDerive wDecrypt pl "pw123456" := by
  obtain ⟨pl, t, c, hpl⟩ : ∃ pl t c,
      encodeSession wDerive wEncrypt "pw123456" [1] [2] wKdf "doc" ".txt" "Q"
        none [10, 20, 30] = .ok (pl, t, c) := ⟨_, _, _, rfl⟩
  exact ⟨pl, t, c, hpl,
    decode_enumeration_invariance wDerive wEncrypt wDecrypt "pw123456" [1] [2]
      wKdf "doc" ".txt" "Q" none [10, 20, 30] pl t c (fun n h => nomatch h) hpl
      (by decide) (by decide) (by decide) (by decide) (by decide) (by decide)
      "pw123456" (pl.reverse ++ pl)
      (fun m => by simp [List.mem_append, List.mem_reverse, or_self])⟩

end GitZipQR
